import Mathlib

/-!
Verification of the cuss-bussin front end (src/main.ts).

The file embeds the lexer (`tokenize` and its helper predicates), the
per-line decision of the interactive loop (`repl`), and the filename gate of
the file runner (`run`) as executable Lean definitions, and proves the
specified properties about them.
-/

set_option maxHeartbeats 1000000

/-- Token kinds of the lexer, mirroring the TypeScript enum `TokenType`. -/
inductive TokenType where
  | Number
  | Identifier
  | String
  | Let
  | Const
  | Fn
  | If
  | Else
  | For
  | BinaryOperator
  | Equals
  | Comma
  | Colon
  | Semicolon
  | Dot
  | OpenParen
  | CloseParen
  | OpenBrace
  | CloseBrace
  | OpenBracket
  | CloseBracket
  | Quotation
  | Greater
  | Lesser
  | EqualsCompare
  | NotEqualsCompare
  | Exclamation
  | And
  | Ampersand
  | Bar
  | EOF
deriving DecidableEq, Repr

/-- Token produced by the lexer: the raw lexeme and its kind, mirroring the
TypeScript interface `Token` with fields `value` and `type`. -/
structure Token where
  value : String
  type : TokenType
deriving DecidableEq, Repr

/-- Helper building a token from a value and a type (the TS function `token`). -/
def token (value : String) (type : TokenType) : Token := ⟨value, type⟩

/-- Keyword lookup table (the TS record `KEYWORDS`): the six reserved words,
each mapped to its keyword token kind; every other name misses. -/
def KEYWORDS (s : String) : Option TokenType :=
  if s = "let" then some TokenType.Let
  else if s = "const" then some TokenType.Const
  else if s = "fn" then some TokenType.Fn
  else if s = "if" then some TokenType.If
  else if s = "else" then some TokenType.Else
  else if s = "for" then some TokenType.For
  else none

/-- Character class `[A-Za-z_]` (the TS `isalpha`, which tests a
one-character string against the regular expression `^[A-Za-z_]+$`). -/
def isalpha (c : Char) : Bool :=
  ('A'.toNat ≤ c.toNat && c.toNat ≤ 'Z'.toNat) ||
    ('a'.toNat ≤ c.toNat && c.toNat ≤ 'z'.toNat) || c = '_'

/-- Whitespace characters skipped between tokens (the TS `isskippable`). -/
def isskippable (c : Char) : Bool :=
  c = ' ' || c = '\n' || c = '\t' || c = '\r'

/-- Digit test by character-code bounds (the TS `isint`). -/
def isint (c : Char) : Bool :=
  '0'.toNat ≤ c.toNat && c.toNat ≤ '9'.toNat

/-- Result of running the lexer. The TS `tokenize` either returns the token
array or, on an unrecognized character, logs that character's code point with
`console.error` and calls `process.exit(1)`; `processExit` records the exit
status together with the logged code point. No error value is ever returned
to a caller. -/
inductive LexOutcome where
  | ok (tokens : List Token)
  | processExit (status : Nat) (codePoint : Nat)
deriving DecidableEq, Repr

/-- Prepend one already-pushed token to the outcome of lexing the rest of the
source (a `tokens.push` made before the loop continues). -/
def LexOutcome.consTok (t : Token) : LexOutcome → LexOutcome
  | .ok ts => .ok (t :: ts)
  | .processExit s c => .processExit s c

/-- Single-character cases of the TS `switch` in `tokenize` (the cases before
`default`): grouping symbols, the five binary-operator characters, and the
remaining one-character punctuation. -/
def singleCharToken (c : Char) : Option Token :=
  match c with
  | '(' => some (token "(" TokenType.OpenParen)
  | ')' => some (token ")" TokenType.CloseParen)
  | '\x7b' => some (token "\x7b" TokenType.OpenBrace)
  | '\x7d' => some (token "\x7d" TokenType.CloseBrace)
  | '[' => some (token "[" TokenType.OpenBracket)
  | ']' => some (token "]" TokenType.CloseBracket)
  | '+' | '-' | '*' | '%' | '/' => some (token (String.singleton c) TokenType.BinaryOperator)
  | '<' => some (token "<" TokenType.Lesser)
  | '>' => some (token ">" TokenType.Greater)
  | '.' => some (token "." TokenType.Dot)
  | ';' => some (token ";" TokenType.Semicolon)
  | ':' => some (token ":" TokenType.Colon)
  | ',' => some (token "," TokenType.Comma)
  | '|' => some (token "|" TokenType.Bar)
  | _ => none

/-- Length of a `dropWhile` result never exceeds the length of the input. -/
theorem length_dropWhile_le (p : Char → Bool) (l : List Char) :
    (l.dropWhile p).length ≤ l.length :=
  (List.dropWhile_sublist p).length_le

/-- Body of the TS `while (src.length > 0)` loop of `tokenize`, recursing on
the remaining character list. Every iteration shifts at least one character
off `src`, so the recursion is bounded by the length of the source; the EOF
token is appended by `tokenize` after the loop. Maximal digit and
letter/underscore runs are consumed with `takeWhile`/`dropWhile`, matching
the inner `while` loops of the TS code; the string-literal case consumes the
opening quote, the characters up to the next quote, and then one more
character (the closing quote when present — on a missing closing quote the
final `src.shift()` of an empty array is a no-op, as in JS). -/
def lexLoop (src : List Char) : LexOutcome :=
  match src with
  | [] => .ok []
  | c :: rest =>
    match singleCharToken c with
    | some t => (lexLoop rest).consTok t
    | none =>
      if hint : isint c then
        (lexLoop ((c :: rest).dropWhile isint)).consTok
          (token (String.mk ((c :: rest).takeWhile isint)) TokenType.Number)
      else if c = '=' then
        if rest.head? = some '=' then
          (lexLoop rest.tail).consTok (token "==" TokenType.EqualsCompare)
        else
          (lexLoop rest).consTok (token "=" TokenType.Equals)
      else if c = '&' then
        if rest.head? = some '&' then
          (lexLoop rest.tail).consTok (token "&&" TokenType.And)
        else
          (lexLoop rest).consTok (token "&" TokenType.Ampersand)
      else if c = '!' then
        if rest.head? = some '=' then
          (lexLoop rest.tail).consTok (token "!=" TokenType.NotEqualsCompare)
        else
          (lexLoop rest).consTok (token "!" TokenType.Exclamation)
      else if c = '\"' then
        (lexLoop ((rest.dropWhile (fun x => x ≠ '\"')).drop 1)).consTok
          (token (String.mk (rest.takeWhile (fun x => x ≠ '\"'))) TokenType.String)
      else if halpha : isalpha c then
        (lexLoop ((c :: rest).dropWhile isalpha)).consTok
          (match KEYWORDS (String.mk ((c :: rest).takeWhile isalpha)) with
           | some reserved => token (String.mk ((c :: rest).takeWhile isalpha)) reserved
           | none => token (String.mk ((c :: rest).takeWhile isalpha)) TokenType.Identifier)
      else if isskippable c then
        lexLoop rest
      else
        .processExit 1 c.toNat
termination_by src.length
decreasing_by
  all_goals simp only [List.length_cons]
  all_goals first
    | omega
    | (rw [List.dropWhile_cons, if_pos hint]
       have h := length_dropWhile_le isint rest
       omega)
    | (rw [List.dropWhile_cons, if_pos halpha]
       have h := length_dropWhile_le isalpha rest
       omega)
    | (have h := rest.length_tail
       omega)
    | (have h1 := length_dropWhile_le (fun x => x ≠ '\"') rest
       have h2 := List.length_drop 1 (rest.dropWhile (fun x => x ≠ '\"'))
       omega)

/-- The TS `tokenize`: run the scanning loop over the characters of the
source and append the single end-of-file token. -/
def tokenize (sourceCode : String) : LexOutcome :=
  match lexLoop sourceCode.data with
  | .ok toks => .ok (toks ++ [token "EndOfFile" TokenType.EOF])
  | .processExit s c => .processExit s c

/-- Characters belonging to some recognized class of the scanner; a scanned
character in none of these classes reaches the final `else` of the loop and
triggers the unrecognized-character exit. -/
def recognizedChar (c : Char) : Bool :=
  (singleCharToken c).isSome || isint c || c = '=' || c = '&' || c = '!' ||
    c = '\"' || isalpha c || isskippable c

/-- Decision the TS `repl` makes about one line read from the prompt: it
calls `process.exit(1)` when the line is empty (a falsy string) or contains
the substring `"exit"`, and otherwise transcribes, parses and evaluates the
line and keeps looping. -/
inductive ReplAction where
  | exitProcess (status : Nat)
  | evalAndContinue
deriving DecidableEq, Repr

/-- Substring test modelling the JS `String.prototype.includes`. -/
def jsIncludes (s search : String) : Bool := decide (search.data <:+: s.data)

/-- Per-line step of the TS `repl` loop: the guard
`if (!input || input.includes("exit")) process.exit(1)` decides between
exiting the process and evaluating the line before reading the next one. -/
def replStep (input : String) : ReplAction :=
  if input = "" || jsIncludes input "exit" then ReplAction.exitProcess 1
  else ReplAction.evalAndContinue

/-- Outcome of the TS `run` entry point on a filename: when the name lacks
the `cbs` suffix, `run` returns at once, so the file is neither read nor
lexed, parsed or evaluated; otherwise the file's text enters the
transcribe → parse → evaluate pipeline (whose stages live in modules outside
this repository's sources). -/
inductive RunResult where
  | ignored
  | processed
deriving DecidableEq, Repr

/-- Suffix test modelling the JS `String.prototype.endsWith`. -/
def jsEndsWith (s search : String) : Bool := decide (search.data <:+ s.data)

/-- Filename gate of the TS `run`: `if (!filename.endsWith("cbs")) return`. -/
def run (filename : String) : RunResult :=
  if !jsEndsWith filename "cbs" then RunResult.ignored else RunResult.processed

/-! ## Character-class facts -/

/-- Digit characters fall through every single-character case of the switch. -/
theorem singleCharToken_isint (c : Char) (h : isint c = true) :
    singleCharToken c = none := by
  unfold singleCharToken
  split
  all_goals first
    | rfl
    | exact absurd h (by decide)

/-- Letter/underscore characters fall through every single-character case. -/
theorem singleCharToken_isalpha (c : Char) (h : isalpha c = true) :
    singleCharToken c = none := by
  unfold singleCharToken
  split
  all_goals first
    | rfl
    | exact absurd h (by decide)

/-- Numeric bounds carried by `isint`. -/
theorem isint_toNat (c : Char) (h : isint c = true) :
    48 ≤ c.toNat ∧ c.toNat ≤ 57 := by
  simpa [isint] using h

/-- Numeric bounds carried by `isalpha`. -/
theorem isalpha_toNat (c : Char) (h : isalpha c = true) :
    65 ≤ c.toNat ∧ c.toNat ≤ 90 ∨ 97 ≤ c.toNat ∧ c.toNat ≤ 122 ∨ c.toNat = 95 := by
  simp only [isalpha, Bool.or_eq_true, Bool.and_eq_true, decide_eq_true_eq] at h
  rcases h with (⟨h1, h2⟩ | ⟨h1, h2⟩) | h3
  · exact Or.inl ⟨h1, h2⟩
  · exact Or.inr (Or.inl ⟨h1, h2⟩)
  · subst h3
    exact Or.inr (Or.inr (by decide))

/-- A letter/underscore character is not a digit. -/
theorem isint_of_isalpha (c : Char) (h : isalpha c = true) : isint c = false := by
  cases hi : isint c
  · rfl
  · have h1 := isint_toNat c hi
    have h2 := isalpha_toNat c h
    omega

/-- Letter/underscore characters are none of the lookahead starters nor the
string delimiter. -/
theorem isalpha_ne (c : Char) (h : isalpha c = true) :
    c ≠ '=' ∧ c ≠ '&' ∧ c ≠ '!' ∧ c ≠ '\"' := by
  refine ⟨?_, ?_, ?_, ?_⟩ <;> (intro hc; subst hc; exact absurd h (by decide))

/-- Digit characters are none of the lookahead starters nor the string
delimiter. -/
theorem isint_ne (c : Char) (h : isint c = true) :
    c ≠ '=' ∧ c ≠ '&' ∧ c ≠ '!' ∧ c ≠ '\"' := by
  refine ⟨?_, ?_, ?_, ?_⟩ <;> (intro hc; subst hc; exact absurd h (by decide))

/-- Whitespace characters reach the `isskippable` test: they match no earlier
case of the scanner. -/
theorem isskippable_class (c : Char) (h : isskippable c = true) :
    singleCharToken c = none ∧ isint c = false ∧ isalpha c = false ∧
      c ≠ '=' ∧ c ≠ '&' ∧ c ≠ '!' ∧ c ≠ '\"' := by
  simp only [isskippable, Bool.or_eq_true, decide_eq_true_eq] at h
  rcases h with ((hc | hc) | hc) | hc <;> subst hc <;>
    exact ⟨by decide, by decide, by decide, by decide, by decide, by decide, by decide⟩

/-! ## One-step unfolding lemmas for `lexLoop` -/

theorem lexLoop_nil : lexLoop [] = .ok [] := by
  rw [lexLoop.eq_def]

theorem lexLoop_single (c : Char) (rest : List Char) (t : Token)
    (h : singleCharToken c = some t) :
    lexLoop (c :: rest) = (lexLoop rest).consTok t := by
  rw [lexLoop.eq_def]
  simp [h]

theorem lexLoop_int (c : Char) (rest : List Char) (h : isint c = true) :
    lexLoop (c :: rest) = (lexLoop ((c :: rest).dropWhile isint)).consTok
      (token (String.mk ((c :: rest).takeWhile isint)) TokenType.Number) := by
  rw [lexLoop.eq_def]
  simp [singleCharToken_isint c h, h]

theorem lexLoop_eqCh (rest : List Char) :
    lexLoop ('=' :: rest) =
      if rest.head? = some '=' then
        (lexLoop rest.tail).consTok (token "==" TokenType.EqualsCompare)
      else
        (lexLoop rest).consTok (token "=" TokenType.Equals) := by
  rw [lexLoop.eq_def]
  simp [(by decide : singleCharToken '=' = none), (by decide : isint '=' = false)]

theorem lexLoop_amp (rest : List Char) :
    lexLoop ('&' :: rest) =
      if rest.head? = some '&' then
        (lexLoop rest.tail).consTok (token "&&" TokenType.And)
      else
        (lexLoop rest).consTok (token "&" TokenType.Ampersand) := by
  rw [lexLoop.eq_def]
  simp [(by decide : singleCharToken '&' = none), (by decide : isint '&' = false)]

theorem lexLoop_bang (rest : List Char) :
    lexLoop ('!' :: rest) =
      if rest.head? = some '=' then
        (lexLoop rest.tail).consTok (token "!=" TokenType.NotEqualsCompare)
      else
        (lexLoop rest).consTok (token "!" TokenType.Exclamation) := by
  rw [lexLoop.eq_def]
  simp [(by decide : singleCharToken '!' = none), (by decide : isint '!' = false)]

theorem lexLoop_quote (rest : List Char) :
    lexLoop ('\"' :: rest) =
      (lexLoop ((rest.dropWhile (fun x => x ≠ '\"')).drop 1)).consTok
        (token (String.mk (rest.takeWhile (fun x => x ≠ '\"'))) TokenType.String) := by
  rw [lexLoop.eq_def]
  simp [(by decide : singleCharToken '\"' = none), (by decide : isint '\"' = false)]

theorem lexLoop_alpha (c : Char) (rest : List Char) (h : isalpha c = true) :
    lexLoop (c :: rest) = (lexLoop ((c :: rest).dropWhile isalpha)).consTok
      (token (String.mk ((c :: rest).takeWhile isalpha))
        ((KEYWORDS (String.mk ((c :: rest).takeWhile isalpha))).getD
          TokenType.Identifier)) := by
  rw [lexLoop.eq_def]
  obtain ⟨h1, h2, h3, h4⟩ := isalpha_ne c h
  simp only [singleCharToken_isalpha c h, isint_of_isalpha c h, h, h1, h2, h3, h4,
    Bool.false_eq_true, if_false, dite_false, dif_neg, if_neg, ite_false]
  cases hk : KEYWORDS (String.mk ((c :: rest).takeWhile isalpha)) <;> simp [hk]

theorem lexLoop_skip (c : Char) (rest : List Char) (h : isskippable c = true) :
    lexLoop (c :: rest) = lexLoop rest := by
  rw [lexLoop.eq_def]
  obtain ⟨h0, h1, h2, h3, h4, h5, h6⟩ := isskippable_class c h
  simp [h0, h1, h2, h3, h4, h5, h6, h]

theorem lexLoop_unrec (c : Char) (rest : List Char) (h : recognizedChar c = false) :
    lexLoop (c :: rest) = .processExit 1 c.toNat := by
  simp only [recognizedChar, Bool.or_eq_false_iff, decide_eq_false_iff_not] at h
  obtain ⟨⟨⟨⟨⟨⟨⟨h0, h1⟩, h2⟩, h3⟩, h4⟩, h5⟩, h6⟩, h7⟩ := h
  have h0' : singleCharToken c = none := by
    cases hs : singleCharToken c
    · rfl
    · rw [hs] at h0
      simp at h0
  rw [lexLoop.eq_def]
  simp [h0', h1, h2, h3, h4, h5, h6, h7]

/-! ## List-scanning helpers -/

/-- Appending after the scanned list does not change a `takeWhile` run when
the first appended character already fails the predicate. -/
theorem takeWhile_append_head {p : Char → Bool} (l₁ l₂ : List Char)
    (h : ∀ c, l₂.head? = some c → p c = false) :
    (l₁ ++ l₂).takeWhile p = l₁.takeWhile p ∧
      (l₁ ++ l₂).dropWhile p = l₁.dropWhile p ++ l₂ := by
  induction l₁ with
  | nil =>
    cases l₂ with
    | nil => simp
    | cons a t =>
      have ha := h a rfl
      simp [List.takeWhile_cons, List.dropWhile_cons, ha]
  | cons a t ih =>
    cases hp : p a <;>
      simp [List.takeWhile_cons, List.dropWhile_cons, hp, ih]

/-- Appending after the scanned list does not change a `takeWhile` run when
some character of the scanned list already fails the predicate. -/
theorem takeWhile_append_stop {p : Char → Bool} (l₁ l₂ : List Char)
    (h : ∃ x ∈ l₁, p x = false) :
    (l₁ ++ l₂).takeWhile p = l₁.takeWhile p ∧
      (l₁ ++ l₂).dropWhile p = l₁.dropWhile p ++ l₂ := by
  induction l₁ with
  | nil => simp at h
  | cons a t ih =>
    cases hp : p a with
    | false => simp [List.takeWhile_cons, List.dropWhile_cons, hp]
    | true =>
      obtain ⟨x, hx, hpx⟩ := h
      rcases List.mem_cons.mp hx with rfl | hx'
      · rw [hp] at hpx
        exact absurd hpx (by simp)
      · have hres := ih ⟨x, hx', hpx⟩
        simp [List.takeWhile_cons, List.dropWhile_cons, hp, hres]

/-- A `takeWhile` run over a list all of whose characters satisfy the
predicate is the whole list. -/
theorem takeWhile_all {p : Char → Bool} (l : List Char)
    (h : ∀ c ∈ l, p c = true) :
    l.takeWhile p = l ∧ l.dropWhile p = [] := by
  induction l with
  | nil => simp
  | cons a t ih =>
    have ha := h a (List.mem_cons_self a t)
    have ih' := ih fun c hc => h c (List.mem_cons_of_mem a hc)
    simp [List.takeWhile_cons, List.dropWhile_cons, ha, ih']

/-- Scanning up to the first occurrence of a character that is present splits
the list at that occurrence. -/
theorem split_at_stop (a : Char) (l : List Char) (h : a ∈ l) :
    ∃ pre t, l = pre ++ a :: t ∧ a ∉ pre ∧
      l.takeWhile (fun x => x ≠ a) = pre ∧
      l.dropWhile (fun x => x ≠ a) = a :: t := by
  induction l with
  | nil => simp at h
  | cons c cs ih =>
    by_cases hc : c = a
    · subst hc
      exact ⟨[], cs, by simp, by simp, by simp [List.takeWhile_cons],
        by simp [List.dropWhile_cons]⟩
    · have hmem : a ∈ cs := by
        rcases List.mem_cons.mp h with rfl | h'
        · exact absurd rfl hc
        · exact h'
      obtain ⟨pre, t, heq, hnp, htake, hdrop⟩ := ih hmem
      refine ⟨c :: pre, t, by simp [heq], ?_, ?_, ?_⟩
      · intro hmem2
        rcases List.mem_cons.mp hmem2 with rfl | h2
        · exact hc rfl
        · exact hnp h2
      · rw [List.takeWhile_cons, if_pos (by simp [hc]), htake]
      · rw [List.dropWhile_cons, if_pos (by simp [hc]), hdrop]

/-! ## Outcome helpers -/

/-- Prepend a batch of already-produced tokens to a lexing outcome. -/
def LexOutcome.prependToks (ts : List Token) : LexOutcome → LexOutcome
  | .ok ts2 => .ok (ts ++ ts2)
  | .processExit s c => .processExit s c

theorem consTok_eq_ok {t : Token} {o : LexOutcome} {toks : List Token} :
    o.consTok t = .ok toks ↔ ∃ ts, o = .ok ts ∧ toks = t :: ts := by
  cases o with
  | ok ts0 =>
    simp only [LexOutcome.consTok, LexOutcome.ok.injEq]
    constructor
    · intro h
      exact ⟨ts0, rfl, h.symm⟩
    · rintro ⟨ts, hts, rfl⟩
      rw [hts]
  | processExit s c => simp [LexOutcome.consTok]

theorem consTok_eq_exit {t : Token} {o : LexOutcome} {s c : Nat} :
    o.consTok t = .processExit s c ↔ o = .processExit s c := by
  cases o <;> simp [LexOutcome.consTok]

theorem prependToks_nil (o : LexOutcome) : o.prependToks [] = o := by
  cases o <;> simp [LexOutcome.prependToks]

theorem consTok_prependToks (t : Token) (ts : List Token) (o : LexOutcome) :
    (o.prependToks ts).consTok t = o.prependToks (t :: ts) := by
  cases o <;> simp [LexOutcome.prependToks, LexOutcome.consTok]

theorem consTok_as_prepend (t : Token) (o : LexOutcome) :
    o.consTok t = o.prependToks [t] := by
  cases o <;> rfl

/-! ## Shape invariant of produced tokens -/

/-- Shape every token pushed by the scanning loop satisfies, by kind: numeric
tokens carry a nonempty digit string, identifiers a nonempty non-keyword
letter/underscore string, keywords their exact reserved word, operators and
punctuation their fixed lexeme, and string tokens a quote-free content.
`Quotation` and `EOF` tokens are never pushed by the loop. -/
def tokenShape (t : Token) : Prop :=
  match t.type with
  | TokenType.Number => t.value.data ≠ [] ∧ ∀ c ∈ t.value.data, isint c = true
  | TokenType.Identifier =>
      t.value.data ≠ [] ∧ (∀ c ∈ t.value.data, isalpha c = true) ∧ KEYWORDS t.value = none
  | TokenType.String => ∀ c ∈ t.value.data, c ≠ '\"'
  | TokenType.Let => t.value = "let"
  | TokenType.Const => t.value = "const"
  | TokenType.Fn => t.value = "fn"
  | TokenType.If => t.value = "if"
  | TokenType.Else => t.value = "else"
  | TokenType.For => t.value = "for"
  | TokenType.BinaryOperator =>
      t.value = "+" ∨ t.value = "-" ∨ t.value = "*" ∨ t.value = "%" ∨ t.value = "/"
  | TokenType.Equals => t.value = "="
  | TokenType.Comma => t.value = ","
  | TokenType.Colon => t.value = ":"
  | TokenType.Semicolon => t.value = ";"
  | TokenType.Dot => t.value = "."
  | TokenType.OpenParen => t.value = "("
  | TokenType.CloseParen => t.value = ")"
  | TokenType.OpenBrace => t.value = "\x7b"
  | TokenType.CloseBrace => t.value = "\x7d"
  | TokenType.OpenBracket => t.value = "["
  | TokenType.CloseBracket => t.value = "]"
  | TokenType.Quotation => False
  | TokenType.Greater => t.value = ">"
  | TokenType.Lesser => t.value = "<"
  | TokenType.EqualsCompare => t.value = "=="
  | TokenType.NotEqualsCompare => t.value = "!="
  | TokenType.Exclamation => t.value = "!"
  | TokenType.And => t.value = "&&"
  | TokenType.Ampersand => t.value = "&"
  | TokenType.Bar => t.value = "|"
  | TokenType.EOF => False

/-- A hit in the keyword table pins down both the string and the kind. -/
theorem KEYWORDS_eq_some (s : String) (k : TokenType) (h : KEYWORDS s = some k) :
    s = "let" ∧ k = TokenType.Let ∨ s = "const" ∧ k = TokenType.Const ∨
      s = "fn" ∧ k = TokenType.Fn ∨ s = "if" ∧ k = TokenType.If ∨
      s = "else" ∧ k = TokenType.Else ∨ s = "for" ∧ k = TokenType.For := by
  unfold KEYWORDS at h
  repeat' split at h
  all_goals simp_all

/-- Tokens delivered by the single-character cases are well-shaped. -/
theorem singleCharToken_shape (c : Char) (t : Token)
    (h : singleCharToken c = some t) : tokenShape t := by
  unfold singleCharToken at h
  split at h
  all_goals try cases h
  all_goals first
    | exact rfl
    | exact Or.inl rfl
    | exact Or.inr (Or.inl rfl)
    | exact Or.inr (Or.inr (Or.inl rfl))
    | exact Or.inr (Or.inr (Or.inr (Or.inl rfl)))
    | exact Or.inr (Or.inr (Or.inr (Or.inr rfl)))

/-- A character failing every guard of the scanner is unrecognized. -/
theorem recognizedChar_false (c : Char) (hsct : singleCharToken c = none)
    (hint : ¬isint c = true) (hne1 : ¬c = '=') (hne2 : ¬c = '&') (hne3 : ¬c = '!')
    (hne4 : ¬c = '\"') (halpha : ¬isalpha c = true) (hskip : ¬isskippable c = true) :
    recognizedChar c = false := by
  simp only [recognizedChar, hsct, Option.isSome_none, Bool.false_or,
    Bool.or_eq_false_iff, decide_eq_false_iff_not]
  refine ⟨⟨⟨⟨⟨⟨?_, hne1⟩, hne2⟩, hne3⟩, hne4⟩, ?_⟩, ?_⟩
  · simpa using hint
  · simpa using halpha
  · simpa using hskip

/-- Every token returned by the scanning loop is well-shaped. -/
theorem lexLoop_shape (src : List Char) :
    ∀ toks, lexLoop src = .ok toks → ∀ t ∈ toks, tokenShape t := by
  induction src using lexLoop.induct with
  | case1 =>
    intro toks h
    rw [lexLoop_nil] at h
    injection h with h'
    subst h'
    intro t ht
    cases ht
  | case2 c rest t hsct ih =>
    intro toks h
    rw [lexLoop_single c rest t hsct] at h
    obtain ⟨ts, hts, rfl⟩ := consTok_eq_ok.mp h
    intro u hu
    rcases List.mem_cons.mp hu with rfl | hu'
    · exact singleCharToken_shape c u hsct
    · exact ih ts hts u hu'
  | case3 c rest hsct hint ih =>
    intro toks h
    rw [lexLoop_int c rest hint] at h
    obtain ⟨ts, hts, rfl⟩ := consTok_eq_ok.mp h
    intro u hu
    rcases List.mem_cons.mp hu with rfl | hu'
    · refine ⟨?_, ?_⟩
      · simp [token, List.takeWhile_cons, hint]
      · intro x hx
        exact List.mem_takeWhile_imp hx
    · exact ih ts hts u hu'
  | case4 rest hhead _ _ ih =>
    intro toks h
    rw [lexLoop_eqCh rest, if_pos hhead] at h
    obtain ⟨ts, hts, rfl⟩ := consTok_eq_ok.mp h
    intro u hu
    rcases List.mem_cons.mp hu with rfl | hu'
    · exact rfl
    · exact ih ts hts u hu'
  | case5 rest hhead _ _ ih =>
    intro toks h
    rw [lexLoop_eqCh rest, if_neg hhead] at h
    obtain ⟨ts, hts, rfl⟩ := consTok_eq_ok.mp h
    intro u hu
    rcases List.mem_cons.mp hu with rfl | hu'
    · exact rfl
    · exact ih ts hts u hu'
  | case6 rest hhead _ _ _ ih =>
    intro toks h
    rw [lexLoop_amp rest, if_pos hhead] at h
    obtain ⟨ts, hts, rfl⟩ := consTok_eq_ok.mp h
    intro u hu
    rcases List.mem_cons.mp hu with rfl | hu'
    · exact rfl
    · exact ih ts hts u hu'
  | case7 rest hhead _ _ _ ih =>
    intro toks h
    rw [lexLoop_amp rest, if_neg hhead] at h
    obtain ⟨ts, hts, rfl⟩ := consTok_eq_ok.mp h
    intro u hu
    rcases List.mem_cons.mp hu with rfl | hu'
    · exact rfl
    · exact ih ts hts u hu'
  | case8 rest hhead _ _ _ _ ih =>
    intro toks h
    rw [lexLoop_bang rest, if_pos hhead] at h
    obtain ⟨ts, hts, rfl⟩ := consTok_eq_ok.mp h
    intro u hu
    rcases List.mem_cons.mp hu with rfl | hu'
    · exact rfl
    · exact ih ts hts u hu'
  | case9 rest hhead _ _ _ _ ih =>
    intro toks h
    rw [lexLoop_bang rest, if_neg hhead] at h
    obtain ⟨ts, hts, rfl⟩ := consTok_eq_ok.mp h
    intro u hu
    rcases List.mem_cons.mp hu with rfl | hu'
    · exact rfl
    · exact ih ts hts u hu'
  | case10 rest _ _ _ _ _ ih =>
    intro toks h
    rw [lexLoop_quote rest] at h
    obtain ⟨ts, hts, rfl⟩ := consTok_eq_ok.mp h
    intro u hu
    rcases List.mem_cons.mp hu with rfl | hu'
    · intro x hx
      have := List.mem_takeWhile_imp hx
      simpa using this
    · exact ih ts hts u hu'
  | case11 c rest _ _ _ _ _ _ halpha ih =>
    intro toks h
    rw [lexLoop_alpha c rest halpha] at h
    obtain ⟨ts, hts, rfl⟩ := consTok_eq_ok.mp h
    intro u hu
    rcases List.mem_cons.mp hu with rfl | hu'
    · cases hk : KEYWORDS (String.mk ((c :: rest).takeWhile isalpha)) with
      | none =>
        simp only [hk, Option.getD_none]
        refine ⟨?_, ?_, ?_⟩
        · simp [token, List.takeWhile_cons, halpha]
        · intro x hx
          exact List.mem_takeWhile_imp hx
        · exact hk
      | some k =>
        simp only [hk, Option.getD_some]
        rcases KEYWORDS_eq_some _ k hk with ⟨hs, rfl⟩ | ⟨hs, rfl⟩ | ⟨hs, rfl⟩ |
          ⟨hs, rfl⟩ | ⟨hs, rfl⟩ | ⟨hs, rfl⟩ <;>
          simp [tokenShape, token, hs]
    · exact ih ts hts u hu'
  | case12 c rest _ _ _ _ _ _ _ hskip ih =>
    intro toks h
    rw [lexLoop_skip c rest hskip] at h
    exact ih toks h
  | case13 c rest hsct hint hne1 hne2 hne3 hne4 halpha hskip =>
    intro toks h
    rw [lexLoop_unrec c rest
      (recognizedChar_false c hsct hint hne1 hne2 hne3 hne4 halpha hskip)] at h
    cases h

/-- The scanning loop succeeds on any source whose characters all belong to
recognized classes. -/
theorem lexLoop_total (src : List Char) :
    (∀ c ∈ src, recognizedChar c = true) → ∃ toks, lexLoop src = .ok toks := by
  induction src using lexLoop.induct with
  | case1 => exact fun _ => ⟨[], lexLoop_nil⟩
  | case2 c rest t hsct ih =>
    intro hall
    obtain ⟨ts, hts⟩ := ih fun x hx => hall x (List.mem_cons_of_mem c hx)
    exact ⟨t :: ts, by rw [lexLoop_single c rest t hsct, hts]; rfl⟩
  | case3 c rest hsct hint ih =>
    intro hall
    obtain ⟨ts, hts⟩ := ih fun x hx =>
      hall x (List.Sublist.mem hx (List.dropWhile_sublist isint))
    exact ⟨_, by rw [lexLoop_int c rest hint, hts]; rfl⟩
  | case4 rest hhead _ _ ih =>
    intro hall
    obtain ⟨ts, hts⟩ := ih fun x hx =>
      hall x (List.mem_cons_of_mem _ (List.Sublist.mem hx (List.tail_sublist rest)))
    exact ⟨_, by rw [lexLoop_eqCh rest, if_pos hhead, hts]; rfl⟩
  | case5 rest hhead _ _ ih =>
    intro hall
    obtain ⟨ts, hts⟩ := ih fun x hx => hall x (List.mem_cons_of_mem _ hx)
    exact ⟨_, by rw [lexLoop_eqCh rest, if_neg hhead, hts]; rfl⟩
  | case6 rest hhead _ _ _ ih =>
    intro hall
    obtain ⟨ts, hts⟩ := ih fun x hx =>
      hall x (List.mem_cons_of_mem _ (List.Sublist.mem hx (List.tail_sublist rest)))
    exact ⟨_, by rw [lexLoop_amp rest, if_pos hhead, hts]; rfl⟩
  | case7 rest hhead _ _ _ ih =>
    intro hall
    obtain ⟨ts, hts⟩ := ih fun x hx => hall x (List.mem_cons_of_mem _ hx)
    exact ⟨_, by rw [lexLoop_amp rest, if_neg hhead, hts]; rfl⟩
  | case8 rest hhead _ _ _ _ ih =>
    intro hall
    obtain ⟨ts, hts⟩ := ih fun x hx =>
      hall x (List.mem_cons_of_mem _ (List.Sublist.mem hx (List.tail_sublist rest)))
    exact ⟨_, by rw [lexLoop_bang rest, if_pos hhead, hts]; rfl⟩
  | case9 rest hhead _ _ _ _ ih =>
    intro hall
    obtain ⟨ts, hts⟩ := ih fun x hx => hall x (List.mem_cons_of_mem _ hx)
    exact ⟨_, by rw [lexLoop_bang rest, if_neg hhead, hts]; rfl⟩
  | case10 rest _ _ _ _ _ ih =>
    intro hall
    have hsub : List.Sublist ((rest.dropWhile fun x => decide (x ≠ '\"')).drop 1) rest :=
      (List.drop_sublist 1 _).trans (List.dropWhile_sublist _)
    obtain ⟨ts, hts⟩ := ih fun x hx =>
      hall x (List.mem_cons_of_mem _ (List.Sublist.mem hx hsub))
    exact ⟨_, by rw [lexLoop_quote rest, hts]; rfl⟩
  | case11 c rest _ _ _ _ _ _ halpha ih =>
    intro hall
    obtain ⟨ts, hts⟩ := ih fun x hx =>
      hall x (List.Sublist.mem hx (List.dropWhile_sublist isalpha))
    exact ⟨_, by rw [lexLoop_alpha c rest halpha, hts]; rfl⟩
  | case12 c rest _ _ _ _ _ _ _ hskip ih =>
    intro hall
    obtain ⟨ts, hts⟩ := ih fun x hx => hall x (List.mem_cons_of_mem _ hx)
    exact ⟨ts, by rw [lexLoop_skip c rest hskip]; exact hts⟩
  | case13 c rest hsct hint hne1 hne2 hne3 hne4 halpha hskip =>
    intro hall
    have h := hall c (List.mem_cons_self c rest)
    rw [recognizedChar_false c hsct hint hne1 hne2 hne3 hne4 halpha hskip] at h
    cases h

/-- A process exit of the scanning loop always carries status 1 and the code
point of some unrecognized character of the source. -/
theorem lexLoop_exit (src : List Char) :
    ∀ st cp, lexLoop src = .processExit st cp →
      st = 1 ∧ ∃ c ∈ src, recognizedChar c = false ∧ cp = c.toNat := by
  induction src using lexLoop.induct with
  | case1 =>
    intro st cp h
    rw [lexLoop_nil] at h
    cases h
  | case2 c rest t hsct ih =>
    intro st cp h
    rw [lexLoop_single c rest t hsct, consTok_eq_exit] at h
    obtain ⟨hst, c', hc', hrec, hcp⟩ := ih st cp h
    exact ⟨hst, c', List.mem_cons_of_mem _ hc', hrec, hcp⟩
  | case3 c rest hsct hint ih =>
    intro st cp h
    rw [lexLoop_int c rest hint, consTok_eq_exit] at h
    obtain ⟨hst, c', hc', hrec, hcp⟩ := ih st cp h
    exact ⟨hst, c', List.Sublist.mem hc' (List.dropWhile_sublist isint), hrec, hcp⟩
  | case4 rest hhead _ _ ih =>
    intro st cp h
    rw [lexLoop_eqCh rest, if_pos hhead, consTok_eq_exit] at h
    obtain ⟨hst, c', hc', hrec, hcp⟩ := ih st cp h
    exact ⟨hst, c',
      List.mem_cons_of_mem _ (List.Sublist.mem hc' (List.tail_sublist rest)), hrec, hcp⟩
  | case5 rest hhead _ _ ih =>
    intro st cp h
    rw [lexLoop_eqCh rest, if_neg hhead, consTok_eq_exit] at h
    obtain ⟨hst, c', hc', hrec, hcp⟩ := ih st cp h
    exact ⟨hst, c', List.mem_cons_of_mem _ hc', hrec, hcp⟩
  | case6 rest hhead _ _ _ ih =>
    intro st cp h
    rw [lexLoop_amp rest, if_pos hhead, consTok_eq_exit] at h
    obtain ⟨hst, c', hc', hrec, hcp⟩ := ih st cp h
    exact ⟨hst, c',
      List.mem_cons_of_mem _ (List.Sublist.mem hc' (List.tail_sublist rest)), hrec, hcp⟩
  | case7 rest hhead _ _ _ ih =>
    intro st cp h
    rw [lexLoop_amp rest, if_neg hhead, consTok_eq_exit] at h
    obtain ⟨hst, c', hc', hrec, hcp⟩ := ih st cp h
    exact ⟨hst, c', List.mem_cons_of_mem _ hc', hrec, hcp⟩
  | case8 rest hhead _ _ _ _ ih =>
    intro st cp h
    rw [lexLoop_bang rest, if_pos hhead, consTok_eq_exit] at h
    obtain ⟨hst, c', hc', hrec, hcp⟩ := ih st cp h
    exact ⟨hst, c',
      List.mem_cons_of_mem _ (List.Sublist.mem hc' (List.tail_sublist rest)), hrec, hcp⟩
  | case9 rest hhead _ _ _ _ ih =>
    intro st cp h
    rw [lexLoop_bang rest, if_neg hhead, consTok_eq_exit] at h
    obtain ⟨hst, c', hc', hrec, hcp⟩ := ih st cp h
    exact ⟨hst, c', List.mem_cons_of_mem _ hc', hrec, hcp⟩
  | case10 rest _ _ _ _ _ ih =>
    intro st cp h
    rw [lexLoop_quote rest, consTok_eq_exit] at h
    obtain ⟨hst, c', hc', hrec, hcp⟩ := ih st cp h
    have hsub : List.Sublist ((rest.dropWhile fun x => decide (x ≠ '\"')).drop 1) rest :=
      (List.drop_sublist 1 _).trans (List.dropWhile_sublist _)
    exact ⟨hst, c', List.mem_cons_of_mem _ (List.Sublist.mem hc' hsub), hrec, hcp⟩
  | case11 c rest _ _ _ _ _ _ halpha ih =>
    intro st cp h
    rw [lexLoop_alpha c rest halpha, consTok_eq_exit] at h
    obtain ⟨hst, c', hc', hrec, hcp⟩ := ih st cp h
    exact ⟨hst, c', List.Sublist.mem hc' (List.dropWhile_sublist isalpha), hrec, hcp⟩
  | case12 c rest _ _ _ _ _ _ _ hskip ih =>
    intro st cp h
    rw [lexLoop_skip c rest hskip] at h
    obtain ⟨hst, c', hc', hrec, hcp⟩ := ih st cp h
    exact ⟨hst, c', List.mem_cons_of_mem _ hc', hrec, hcp⟩
  | case13 c rest hsct hint hne1 hne2 hne3 hne4 halpha hskip =>
    intro st cp h
    have hrec := recognizedChar_false c hsct hint hne1 hne2 hne3 hne4 halpha hskip
    rw [lexLoop_unrec c rest hrec] at h
    injection h with h1 h2
    exact ⟨h1.symm, c, List.mem_cons_self c rest, hrec, h2.symm⟩

/-- Sources free of the double-quote character never produce string tokens. -/
theorem lexLoop_noString (src : List Char) :
    '\"' ∉ src → ∀ toks, lexLoop src = .ok toks →
      ∀ t ∈ toks, t.type ≠ TokenType.String := by
  induction src using lexLoop.induct with
  | case1 =>
    intro _ toks h
    rw [lexLoop_nil] at h
    injection h with h'
    subst h'
    intro t ht
    cases ht
  | case2 c rest t hsct ih =>
    intro hnq toks h
    rw [lexLoop_single c rest t hsct] at h
    obtain ⟨ts, hts, rfl⟩ := consTok_eq_ok.mp h
    intro u hu
    rcases List.mem_cons.mp hu with rfl | hu'
    · unfold singleCharToken at hsct
      split at hsct
      all_goals try cases hsct
      all_goals simp [token]
    · exact ih (fun hx => hnq (List.mem_cons_of_mem c hx)) ts hts u hu'
  | case3 c rest hsct hint ih =>
    intro hnq toks h
    rw [lexLoop_int c rest hint] at h
    obtain ⟨ts, hts, rfl⟩ := consTok_eq_ok.mp h
    intro u hu
    rcases List.mem_cons.mp hu with rfl | hu'
    · simp [token]
    · exact ih (fun hx => hnq (List.Sublist.mem hx (List.dropWhile_sublist isint)))
        ts hts u hu'
  | case4 rest hhead _ _ ih =>
    intro hnq toks h
    rw [lexLoop_eqCh rest, if_pos hhead] at h
    obtain ⟨ts, hts, rfl⟩ := consTok_eq_ok.mp h
    intro u hu
    rcases List.mem_cons.mp hu with rfl | hu'
    · simp [token]
    · exact ih (fun hx => hnq
        (List.mem_cons_of_mem _ (List.Sublist.mem hx (List.tail_sublist rest)))) ts hts u hu'
  | case5 rest hhead _ _ ih =>
    intro hnq toks h
    rw [lexLoop_eqCh rest, if_neg hhead] at h
    obtain ⟨ts, hts, rfl⟩ := consTok_eq_ok.mp h
    intro u hu
    rcases List.mem_cons.mp hu with rfl | hu'
    · simp [token]
    · exact ih (fun hx => hnq (List.mem_cons_of_mem _ hx)) ts hts u hu'
  | case6 rest hhead _ _ _ ih =>
    intro hnq toks h
    rw [lexLoop_amp rest, if_pos hhead] at h
    obtain ⟨ts, hts, rfl⟩ := consTok_eq_ok.mp h
    intro u hu
    rcases List.mem_cons.mp hu with rfl | hu'
    · simp [token]
    · exact ih (fun hx => hnq
        (List.mem_cons_of_mem _ (List.Sublist.mem hx (List.tail_sublist rest)))) ts hts u hu'
  | case7 rest hhead _ _ _ ih =>
    intro hnq toks h
    rw [lexLoop_amp rest, if_neg hhead] at h
    obtain ⟨ts, hts, rfl⟩ := consTok_eq_ok.mp h
    intro u hu
    rcases List.mem_cons.mp hu with rfl | hu'
    · simp [token]
    · exact ih (fun hx => hnq (List.mem_cons_of_mem _ hx)) ts hts u hu'
  | case8 rest hhead _ _ _ _ ih =>
    intro hnq toks h
    rw [lexLoop_bang rest, if_pos hhead] at h
    obtain ⟨ts, hts, rfl⟩ := consTok_eq_ok.mp h
    intro u hu
    rcases List.mem_cons.mp hu with rfl | hu'
    · simp [token]
    · exact ih (fun hx => hnq
        (List.mem_cons_of_mem _ (List.Sublist.mem hx (List.tail_sublist rest)))) ts hts u hu'
  | case9 rest hhead _ _ _ _ ih =>
    intro hnq toks h
    rw [lexLoop_bang rest, if_neg hhead] at h
    obtain ⟨ts, hts, rfl⟩ := consTok_eq_ok.mp h
    intro u hu
    rcases List.mem_cons.mp hu with rfl | hu'
    · simp [token]
    · exact ih (fun hx => hnq (List.mem_cons_of_mem _ hx)) ts hts u hu'
  | case10 rest _ _ _ _ _ ih =>
    intro hnq toks h
    exact absurd (List.mem_cons_self '\"' rest) hnq
  | case11 c rest _ _ _ _ _ _ halpha ih =>
    intro hnq toks h
    rw [lexLoop_alpha c rest halpha] at h
    obtain ⟨ts, hts, rfl⟩ := consTok_eq_ok.mp h
    intro u hu
    rcases List.mem_cons.mp hu with rfl | hu'
    · cases hk : KEYWORDS (String.mk ((c :: rest).takeWhile isalpha)) with
      | none => simp [hk, token]
      | some k =>
        simp only [hk, Option.getD_some]
        rcases KEYWORDS_eq_some _ k hk with ⟨_, rfl⟩ | ⟨_, rfl⟩ | ⟨_, rfl⟩ |
          ⟨_, rfl⟩ | ⟨_, rfl⟩ | ⟨_, rfl⟩ <;> simp [token]
    · exact ih (fun hx => hnq (List.Sublist.mem hx (List.dropWhile_sublist isalpha)))
        ts hts u hu'
  | case12 c rest _ _ _ _ _ _ _ hskip ih =>
    intro hnq toks h
    rw [lexLoop_skip c rest hskip] at h
    exact ih (fun hx => hnq (List.mem_cons_of_mem _ hx)) toks h
  | case13 c rest hsct hint hne1 hne2 hne3 hne4 halpha hskip =>
    intro hnq toks h
    rw [lexLoop_unrec c rest
      (recognizedChar_false c hsct hint hne1 hne2 hne3 hne4 halpha hskip)] at h
    cases h

/-- Composing scans: when the already-scanned prefix has balanced string
quotes and scans successfully, and the continuation starts with a character
that extends no in-progress token (not a digit, not a letter/underscore, not
`=`, not `&`), scanning the concatenation yields the prefix tokens followed
by the scan of the continuation. -/
theorem lexLoop_append (l₂ : List Char)
    (hb : ∀ c, l₂.head? = some c →
      isint c = false ∧ isalpha c = false ∧ c ≠ '=' ∧ c ≠ '&') (l₁ : List Char) :
    Even (l₁.count '\"') → ∀ toks, lexLoop l₁ = .ok toks →
      lexLoop (l₁ ++ l₂) = (lexLoop l₂).prependToks toks := by
  have hbne : ¬l₂.head? = some '=' := by
    cases hl : l₂.head? with
    | none => simp
    | some a =>
      have ha := (hb a hl).2.2.1
      simp [ha]
  have hbna : ¬l₂.head? = some '&' := by
    cases hl : l₂.head? with
    | none => simp
    | some a =>
      have ha := (hb a hl).2.2.2
      simp [ha]
  induction l₁ using lexLoop.induct with
  | case1 =>
    intro _ toks h
    rw [lexLoop_nil] at h
    injection h with h'
    subst h'
    simp [prependToks_nil]
  | case2 c rest t hsct ih =>
    intro hev toks h
    rw [lexLoop_single c rest t hsct] at h
    obtain ⟨ts, hts, rfl⟩ := consTok_eq_ok.mp h
    have hcq : c ≠ '\"' := by
      intro hc
      subst hc
      rw [(by decide : singleCharToken '\"' = none)] at hsct
      cases hsct
    have hev' : Even (rest.count '\"') := by
      have hcb : (c == '\"') = false := by simp [hcq]
      rw [List.count_cons, hcb] at hev
      simpa using hev
    rw [List.cons_append, lexLoop_single c (rest ++ l₂) t hsct, ih hev' ts hts,
      consTok_prependToks]
  | case3 c rest hsct hint ih =>
    intro hev toks h
    rw [lexLoop_int c rest hint] at h
    obtain ⟨ts, hts, rfl⟩ := consTok_eq_ok.mp h
    have htd := @takeWhile_append_head isint (c :: rest) l₂ fun x hx => (hb x hx).1
    have htake := htd.1
    have hdrop := htd.2
    rw [List.cons_append] at htake hdrop
    have h0 : ((c :: rest).takeWhile isint).count '\"' = 0 :=
      List.count_eq_zero.mpr fun hm =>
        absurd (List.mem_takeWhile_imp hm) (by decide)
    have hev' : Even (((c :: rest).dropWhile isint).count '\"') := by
      conv at hev => rw [← List.takeWhile_append_dropWhile isint (c :: rest)]
      rw [List.count_append, h0, Nat.zero_add] at hev
      exact hev
    have ih' := ih hev' ts hts
    rw [List.cons_append, lexLoop_int c (rest ++ l₂) hint, htake, hdrop, ih',
      consTok_prependToks]
  | case4 rest hhead hsct hni ih =>
    intro hev toks h
    rw [lexLoop_eqCh rest, if_pos hhead] at h
    obtain ⟨ts, hts, rfl⟩ := consTok_eq_ok.mp h
    cases rest with
    | nil => simp at hhead
    | cons r rs =>
      have hr : r = '=' := by simpa using hhead
      subst hr
      have hev' : Even (rs.count '\"') := by
        rw [List.count_cons, List.count_cons,
          (by decide : (('=' : Char) == '\"') = false)] at hev
        simpa using hev
      have ih' := ih hev' ts hts
      rw [List.cons_append, List.cons_append, lexLoop_eqCh ('=' :: (rs ++ l₂)),
        if_pos (by rfl)]
      simp only [List.tail_cons] at ih' ⊢
      rw [ih', consTok_prependToks]
  | case5 rest hhead hsct hni ih =>
    intro hev toks h
    rw [lexLoop_eqCh rest, if_neg hhead] at h
    obtain ⟨ts, hts, rfl⟩ := consTok_eq_ok.mp h
    have hev' : Even (rest.count '\"') := by
      rw [List.count_cons, (by decide : (('=' : Char) == '\"') = false)] at hev
      simpa using hev
    have ih' := ih hev' ts hts
    have hcomb : ¬(rest ++ l₂).head? = some '=' := by
      cases rest with
      | nil => simpa using hbne
      | cons r rs => simpa using hhead
    rw [List.cons_append, lexLoop_eqCh (rest ++ l₂), if_neg hcomb, ih',
      consTok_prependToks]
  | case6 rest hhead hsct hni hne1 ih =>
    intro hev toks h
    rw [lexLoop_amp rest, if_pos hhead] at h
    obtain ⟨ts, hts, rfl⟩ := consTok_eq_ok.mp h
    cases rest with
    | nil => simp at hhead
    | cons r rs =>
      have hr : r = '&' := by simpa using hhead
      subst hr
      have hev' : Even (rs.count '\"') := by
        rw [List.count_cons, List.count_cons,
          (by decide : (('&' : Char) == '\"') = false)] at hev
        simpa using hev
      have ih' := ih hev' ts hts
      rw [List.cons_append, List.cons_append, lexLoop_amp ('&' :: (rs ++ l₂)),
        if_pos (by rfl)]
      simp only [List.tail_cons] at ih' ⊢
      rw [ih', consTok_prependToks]
  | case7 rest hhead hsct hni hne1 ih =>
    intro hev toks h
    rw [lexLoop_amp rest, if_neg hhead] at h
    obtain ⟨ts, hts, rfl⟩ := consTok_eq_ok.mp h
    have hev' : Even (rest.count '\"') := by
      rw [List.count_cons, (by decide : (('&' : Char) == '\"') = false)] at hev
      simpa using hev
    have ih' := ih hev' ts hts
    have hcomb : ¬(rest ++ l₂).head? = some '&' := by
      cases rest with
      | nil => simpa using hbna
      | cons r rs => simpa using hhead
    rw [List.cons_append, lexLoop_amp (rest ++ l₂), if_neg hcomb, ih',
      consTok_prependToks]
  | case8 rest hhead hsct hni hne1 hne2 ih =>
    intro hev toks h
    rw [lexLoop_bang rest, if_pos hhead] at h
    obtain ⟨ts, hts, rfl⟩ := consTok_eq_ok.mp h
    cases rest with
    | nil => simp at hhead
    | cons r rs =>
      have hr : r = '=' := by simpa using hhead
      subst hr
      have hev' : Even (rs.count '\"') := by
        rw [List.count_cons, List.count_cons,
          (by decide : (('!' : Char) == '\"') = false),
          (by decide : (('=' : Char) == '\"') = false)] at hev
        simpa using hev
      have ih' := ih hev' ts hts
      rw [List.cons_append, List.cons_append, lexLoop_bang ('=' :: (rs ++ l₂)),
        if_pos (by rfl)]
      simp only [List.tail_cons] at ih' ⊢
      rw [ih', consTok_prependToks]
  | case9 rest hhead hsct hni hne1 hne2 ih =>
    intro hev toks h
    rw [lexLoop_bang rest, if_neg hhead] at h
    obtain ⟨ts, hts, rfl⟩ := consTok_eq_ok.mp h
    have hev' : Even (rest.count '\"') := by
      rw [List.count_cons, (by decide : (('!' : Char) == '\"') = false)] at hev
      simpa using hev
    have ih' := ih hev' ts hts
    have hcomb : ¬(rest ++ l₂).head? = some '=' := by
      cases rest with
      | nil => simpa using hbne
      | cons r rs => simpa using hhead
    rw [List.cons_append, lexLoop_bang (rest ++ l₂), if_neg hcomb, ih',
      consTok_prependToks]
  | case10 rest hsct hni hne1 hne2 hne3 ih =>
    intro hev toks h
    rw [lexLoop_quote rest] at h
    obtain ⟨ts, hts, rfl⟩ := consTok_eq_ok.mp h
    have hmem : '\"' ∈ rest := by
      by_contra hnm
      rw [List.count_cons, (by decide : (('\"' : Char) == '\"') = true), if_pos rfl,
        List.count_eq_zero.mpr hnm] at hev
      exact absurd hev (by decide)
    obtain ⟨pre, t', heq, hnp, htake, hdrop⟩ := split_at_stop '\"' rest hmem
    rw [hdrop] at hts ih
    simp only [List.drop_succ_cons, List.drop_zero] at hts ih
    have hprecnt : pre.count '\"' = 0 := List.count_eq_zero.mpr hnp
    have hev' : Even (t'.count '\"') := by
      rw [List.count_cons, (by decide : (('\"' : Char) == '\"') = true), if_pos rfl,
        heq, List.count_append, hprecnt, List.count_cons,
        (by decide : (('\"' : Char) == '\"') = true), if_pos rfl] at hev
      rw [Nat.even_iff] at hev ⊢
      omega
    have ih' := ih hev' ts hts
    have hstop := @takeWhile_append_stop (fun x => decide (x ≠ '\"')) rest l₂
      ⟨'\"', hmem, by simp⟩
    rw [List.cons_append, lexLoop_quote (rest ++ l₂), hstop.1, hstop.2, hdrop]
    simp only [List.cons_append, List.drop_succ_cons, List.drop_zero]
    rw [ih', consTok_prependToks]
  | case11 c rest hsct hni hne1 hne2 hne3 hne4 halpha ih =>
    intro hev toks h
    rw [lexLoop_alpha c rest halpha] at h
    obtain ⟨ts, hts, rfl⟩ := consTok_eq_ok.mp h
    have htd := @takeWhile_append_head isalpha (c :: rest) l₂ fun x hx => (hb x hx).2.1
    have htake := htd.1
    have hdrop := htd.2
    rw [List.cons_append] at htake hdrop
    have h0 : ((c :: rest).takeWhile isalpha).count '\"' = 0 :=
      List.count_eq_zero.mpr fun hm =>
        absurd (List.mem_takeWhile_imp hm) (by decide)
    have hev' : Even (((c :: rest).dropWhile isalpha).count '\"') := by
      conv at hev => rw [← List.takeWhile_append_dropWhile isalpha (c :: rest)]
      rw [List.count_append, h0, Nat.zero_add] at hev
      exact hev
    have ih' := ih hev' ts hts
    rw [List.cons_append, lexLoop_alpha c (rest ++ l₂) halpha, htake, hdrop, ih',
      consTok_prependToks]
  | case12 c rest hsct hni hne1 hne2 hne3 hne4 hnal hskip ih =>
    intro hev toks h
    rw [lexLoop_skip c rest hskip] at h
    have hev' : Even (rest.count '\"') := by
      have hcb : (c == '\"') = false := by simp [hne4]
      rw [List.count_cons, hcb] at hev
      simpa using hev
    rw [List.cons_append, lexLoop_skip c (rest ++ l₂) hskip]
    exact ih hev' toks h
  | case13 c rest hsct hint hne1 hne2 hne3 hne4 halpha hskip =>
    intro hev toks h
    rw [lexLoop_unrec c rest
      (recognizedChar_false c hsct hint hne1 hne2 hne3 hne4 halpha hskip)] at h
    cases h

/-! ## Re-lexing machinery -/

/-- Values of well-shaped non-string tokens never contain the quote. -/
theorem tokenShape_no_quote (t : Token) (ht : tokenShape t)
    (hns : t.type ≠ TokenType.String) : '\"' ∉ t.value.data := by
  rcases t with ⟨v, ty⟩
  cases ty with
  | Number =>
    intro hm
    exact absurd (ht.2 '\"' hm) (by decide)
  | Identifier =>
    intro hm
    exact absurd (ht.2.1 '\"' hm) (by decide)
  | String => exact absurd rfl hns
  | Quotation => exact ht.elim
  | EOF => exact ht.elim
  | BinaryOperator =>
    rcases ht with hv | hv | hv | hv | hv <;> (subst hv; decide)
  | Let =>
    have hv : v = "let" := ht
    subst hv
    decide
  | Const =>
    have hv : v = "const" := ht
    subst hv
    decide
  | Fn =>
    have hv : v = "fn" := ht
    subst hv
    decide
  | If =>
    have hv : v = "if" := ht
    subst hv
    decide
  | Else =>
    have hv : v = "else" := ht
    subst hv
    decide
  | For =>
    have hv : v = "for" := ht
    subst hv
    decide
  | Equals =>
    have hv : v = "=" := ht
    subst hv
    decide
  | Comma =>
    have hv : v = "," := ht
    subst hv
    decide
  | Colon =>
    have hv : v = ":" := ht
    subst hv
    decide
  | Semicolon =>
    have hv : v = ";" := ht
    subst hv
    decide
  | Dot =>
    have hv : v = "." := ht
    subst hv
    decide
  | OpenParen =>
    have hv : v = "(" := ht
    subst hv
    decide
  | CloseParen =>
    have hv : v = ")" := ht
    subst hv
    decide
  | OpenBrace =>
    have hv : v = "\x7b" := ht
    subst hv
    decide
  | CloseBrace =>
    have hv : v = "\x7d" := ht
    subst hv
    decide
  | OpenBracket =>
    have hv : v = "[" := ht
    subst hv
    decide
  | CloseBracket =>
    have hv : v = "]" := ht
    subst hv
    decide
  | Greater =>
    have hv : v = ">" := ht
    subst hv
    decide
  | Lesser =>
    have hv : v = "<" := ht
    subst hv
    decide
  | EqualsCompare =>
    have hv : v = "==" := ht
    subst hv
    decide
  | NotEqualsCompare =>
    have hv : v = "!=" := ht
    subst hv
    decide
  | Exclamation =>
    have hv : v = "!" := ht
    subst hv
    decide
  | And =>
    have hv : v = "&&" := ht
    subst hv
    decide
  | Ampersand =>
    have hv : v = "&" := ht
    subst hv
    decide
  | Bar =>
    have hv : v = "|" := ht
    subst hv
    decide

/-- Scanning exactly the raw text of a well-shaped non-string token yields
that token back. -/
theorem lexLoop_value (t : Token) (ht : tokenShape t)
    (hns : t.type ≠ TokenType.String) :
    lexLoop t.value.data = .ok [t] := by
  rcases t with ⟨v, ty⟩
  cases ty with
  | Number =>
    obtain ⟨hne, hall⟩ := ht
    cases hd : v.data with
    | nil => exact absurd hd hne
    | cons d ds =>
      have hdint : isint d = true := hall d (by rw [hd]; exact List.mem_cons_self d ds)
      have hta := @takeWhile_all isint (d :: ds) fun c hc => hall c (by rw [hd]; exact hc)
      rw [lexLoop_int d ds hdint, hta.1, hta.2, lexLoop_nil, ← hd]
      rfl
  | Identifier =>
    obtain ⟨hne, hall, hkw⟩ := ht
    cases hd : v.data with
    | nil => exact absurd hd hne
    | cons d ds =>
      have hdal : isalpha d = true := hall d (by rw [hd]; exact List.mem_cons_self d ds)
      have hta := @takeWhile_all isalpha (d :: ds) fun c hc => hall c (by rw [hd]; exact hc)
      rw [lexLoop_alpha d ds hdal, hta.1, hta.2, lexLoop_nil, ← hd]
      have hv : String.mk v.data = v := rfl
      rw [hv, hkw]
      rfl
  | String => exact absurd rfl hns
  | Quotation => exact ht.elim
  | EOF => exact ht.elim
  | BinaryOperator =>
    rcases ht with hv | hv | hv | hv | hv <;>
      (subst hv
       simp [lexLoop, singleCharToken, token, isint, isalpha, isskippable, KEYWORDS,
      LexOutcome.consTok]
       try decide)
  | Let =>
    have hv : v = "let" := ht
    subst hv
    simp [lexLoop, singleCharToken, token, isint, isalpha, isskippable, KEYWORDS,
      LexOutcome.consTok]
  | Const =>
    have hv : v = "const" := ht
    subst hv
    simp [lexLoop, singleCharToken, token, isint, isalpha, isskippable, KEYWORDS,
      LexOutcome.consTok]
  | Fn =>
    have hv : v = "fn" := ht
    subst hv
    simp [lexLoop, singleCharToken, token, isint, isalpha, isskippable, KEYWORDS,
      LexOutcome.consTok]
  | If =>
    have hv : v = "if" := ht
    subst hv
    simp [lexLoop, singleCharToken, token, isint, isalpha, isskippable, KEYWORDS,
      LexOutcome.consTok]
  | Else =>
    have hv : v = "else" := ht
    subst hv
    simp [lexLoop, singleCharToken, token, isint, isalpha, isskippable, KEYWORDS,
      LexOutcome.consTok]
  | For =>
    have hv : v = "for" := ht
    subst hv
    simp [lexLoop, singleCharToken, token, isint, isalpha, isskippable, KEYWORDS,
      LexOutcome.consTok]
  | Equals =>
    have hv : v = "=" := ht
    subst hv
    simp [lexLoop, singleCharToken, token, isint, isalpha, isskippable, KEYWORDS,
      LexOutcome.consTok]
  | Comma =>
    have hv : v = "," := ht
    subst hv
    simp [lexLoop, singleCharToken, token, isint, isalpha, isskippable, KEYWORDS,
      LexOutcome.consTok]
  | Colon =>
    have hv : v = ":" := ht
    subst hv
    simp [lexLoop, singleCharToken, token, isint, isalpha, isskippable, KEYWORDS,
      LexOutcome.consTok]
  | Semicolon =>
    have hv : v = ";" := ht
    subst hv
    simp [lexLoop, singleCharToken, token, isint, isalpha, isskippable, KEYWORDS,
      LexOutcome.consTok]
  | Dot =>
    have hv : v = "." := ht
    subst hv
    simp [lexLoop, singleCharToken, token, isint, isalpha, isskippable, KEYWORDS,
      LexOutcome.consTok]
  | OpenParen =>
    have hv : v = "(" := ht
    subst hv
    simp [lexLoop, singleCharToken, token, isint, isalpha, isskippable, KEYWORDS,
      LexOutcome.consTok]
  | CloseParen =>
    have hv : v = ")" := ht
    subst hv
    simp [lexLoop, singleCharToken, token, isint, isalpha, isskippable, KEYWORDS,
      LexOutcome.consTok]
  | OpenBrace =>
    have hv : v = "\x7b" := ht
    subst hv
    simp [lexLoop, singleCharToken, token, isint, isalpha, isskippable, KEYWORDS,
      LexOutcome.consTok]
  | CloseBrace =>
    have hv : v = "\x7d" := ht
    subst hv
    simp [lexLoop, singleCharToken, token, isint, isalpha, isskippable, KEYWORDS,
      LexOutcome.consTok]
  | OpenBracket =>
    have hv : v = "[" := ht
    subst hv
    simp [lexLoop, singleCharToken, token, isint, isalpha, isskippable, KEYWORDS,
      LexOutcome.consTok]
  | CloseBracket =>
    have hv : v = "]" := ht
    subst hv
    simp [lexLoop, singleCharToken, token, isint, isalpha, isskippable, KEYWORDS,
      LexOutcome.consTok]
  | Greater =>
    have hv : v = ">" := ht
    subst hv
    simp [lexLoop, singleCharToken, token, isint, isalpha, isskippable, KEYWORDS,
      LexOutcome.consTok]
  | Lesser =>
    have hv : v = "<" := ht
    subst hv
    simp [lexLoop, singleCharToken, token, isint, isalpha, isskippable, KEYWORDS,
      LexOutcome.consTok]
  | EqualsCompare =>
    have hv : v = "==" := ht
    subst hv
    simp [lexLoop, singleCharToken, token, isint, isalpha, isskippable, KEYWORDS,
      LexOutcome.consTok]
  | NotEqualsCompare =>
    have hv : v = "!=" := ht
    subst hv
    simp [lexLoop, singleCharToken, token, isint, isalpha, isskippable, KEYWORDS,
      LexOutcome.consTok]
  | Exclamation =>
    have hv : v = "!" := ht
    subst hv
    simp [lexLoop, singleCharToken, token, isint, isalpha, isskippable, KEYWORDS,
      LexOutcome.consTok]
  | And =>
    have hv : v = "&&" := ht
    subst hv
    simp [lexLoop, singleCharToken, token, isint, isalpha, isskippable, KEYWORDS,
      LexOutcome.consTok]
  | Ampersand =>
    have hv : v = "&" := ht
    subst hv
    simp [lexLoop, singleCharToken, token, isint, isalpha, isskippable, KEYWORDS,
      LexOutcome.consTok]
  | Bar =>
    have hv : v = "|" := ht
    subst hv
    simp [lexLoop, singleCharToken, token, isint, isalpha, isskippable, KEYWORDS,
      LexOutcome.consTok]

/-- Scanning the raw text of a well-shaped non-string token followed by a
space and arbitrary continuation yields that token and continues. -/
theorem lexLoop_value_space (t : Token) (ht : tokenShape t)
    (hns : t.type ≠ TokenType.String) (rest : List Char) :
    lexLoop (t.value.data ++ ' ' :: rest) = (lexLoop rest).consTok t := by
  have hnq : t.value.data.count '\"' = 0 :=
    List.count_eq_zero.mpr (tokenShape_no_quote t ht hns)
  have happ := lexLoop_append (' ' :: rest)
    (by
      intro c hc
      injection hc with hc'
      subst hc'
      exact ⟨by decide, by decide, by decide, by decide⟩)
    t.value.data (by rw [hnq]; exact even_zero) [t] (lexLoop_value t ht hns)
  rw [happ, lexLoop_skip ' ' rest (by decide), ← consTok_as_prepend]

/-- Raw texts of a token sequence, each followed by one separating space. -/
def spacedFlat : List Token → List Char
  | [] => []
  | t :: ts => t.value.data ++ ' ' :: spacedFlat ts

/-- Scanning the space-separated raw texts of well-shaped non-string tokens
returns exactly that token sequence. -/
theorem lexLoop_spacedFlat (toks : List Token)
    (h : ∀ t ∈ toks, tokenShape t ∧ t.type ≠ TokenType.String) :
    lexLoop (spacedFlat toks) = .ok toks := by
  induction toks with
  | nil => exact lexLoop_nil
  | cons t ts ih =>
    have ht := h t (List.mem_cons_self t ts)
    show lexLoop (t.value.data ++ ' ' :: spacedFlat ts) = _
    rw [lexLoop_value_space t ht.1 ht.2,
      ih fun u hu => h u (List.mem_cons_of_mem t hu)]
    rfl

/-! ## Maximal character runs -/

/-- Maximal digit runs `[0-9]+` of a character list, in source order. -/
def digitRuns (src : List Char) : List (List Char) :=
  match src with
  | [] => []
  | c :: rest =>
    if hint : isint c then
      (c :: rest).takeWhile isint :: digitRuns ((c :: rest).dropWhile isint)
    else
      digitRuns rest
termination_by src.length
decreasing_by
  all_goals simp only [List.length_cons]
  all_goals first
    | omega
    | (rw [List.dropWhile_cons, if_pos hint]
       have h := length_dropWhile_le isint rest
       omega)

/-- Maximal letter/underscore runs `[A-Za-z_]+` of a character list, in
source order. -/
def alphaRuns (src : List Char) : List (List Char) :=
  match src with
  | [] => []
  | c :: rest =>
    if halpha : isalpha c then
      (c :: rest).takeWhile isalpha :: alphaRuns ((c :: rest).dropWhile isalpha)
    else
      alphaRuns rest
termination_by src.length
decreasing_by
  all_goals simp only [List.length_cons]
  all_goals first
    | omega
    | (rw [List.dropWhile_cons, if_pos halpha]
       have h := length_dropWhile_le isalpha rest
       omega)

theorem digitRuns_nil : digitRuns [] = [] := by
  rw [digitRuns.eq_def]

theorem digitRuns_pos (c : Char) (rest : List Char) (h : isint c = true) :
    digitRuns (c :: rest) =
      (c :: rest).takeWhile isint :: digitRuns ((c :: rest).dropWhile isint) := by
  rw [digitRuns.eq_def]
  simp [h]

theorem digitRuns_neg (c : Char) (rest : List Char) (h : isint c = false) :
    digitRuns (c :: rest) = digitRuns rest := by
  rw [digitRuns.eq_def]
  simp [h]

theorem alphaRuns_nil : alphaRuns [] = [] := by
  rw [alphaRuns.eq_def]

theorem alphaRuns_pos (c : Char) (rest : List Char) (h : isalpha c = true) :
    alphaRuns (c :: rest) =
      (c :: rest).takeWhile isalpha :: alphaRuns ((c :: rest).dropWhile isalpha) := by
  rw [alphaRuns.eq_def]
  simp [h]

theorem alphaRuns_neg (c : Char) (rest : List Char) (h : isalpha c = false) :
    alphaRuns (c :: rest) = alphaRuns rest := by
  rw [alphaRuns.eq_def]
  simp [h]

/-- Digit runs skip over any prefix free of digits. -/
theorem digitRuns_append_nonint (pre l : List Char)
    (h : ∀ c ∈ pre, isint c = false) : digitRuns (pre ++ l) = digitRuns l := by
  induction pre with
  | nil => simp
  | cons a t ih =>
    have ha := h a (List.mem_cons_self a t)
    rw [List.cons_append, digitRuns_neg a (t ++ l) ha]
    exact ih fun c hc => h c (List.mem_cons_of_mem a hc)

/-- Letter runs skip over any prefix free of letters and underscores. -/
theorem alphaRuns_append_nonalpha (pre l : List Char)
    (h : ∀ c ∈ pre, isalpha c = false) : alphaRuns (pre ++ l) = alphaRuns l := by
  induction pre with
  | nil => simp
  | cons a t ih =>
    have ha := h a (List.mem_cons_self a t)
    rw [List.cons_append, alphaRuns_neg a (t ++ l) ha]
    exact ih fun c hc => h c (List.mem_cons_of_mem a hc)

/-- A digit is not a letter or underscore. -/
theorem isalpha_of_isint (c : Char) (h : isint c = true) : isalpha c = false := by
  cases ha : isalpha c
  · rfl
  · have h1 := isint_toNat c h
    have h2 := isalpha_toNat c ha
    omega

/-- Identifier-or-keyword token kinds: the kinds a letter/underscore run can
be tagged with. -/
def identLike : TokenType → Bool
  | TokenType.Identifier | TokenType.Let | TokenType.Const | TokenType.Fn
  | TokenType.If | TokenType.Else | TokenType.For => true
  | _ => false

/-- Kind facts about tokens delivered by the single-character cases: never a
numeric literal, never identifier-like, never a string. -/
theorem singleCharToken_type (c : Char) (t : Token)
    (h : singleCharToken c = some t) :
    t.type ≠ TokenType.Number ∧ identLike t.type = false ∧
      t.type ≠ TokenType.String := by
  unfold singleCharToken at h
  split at h
  all_goals try cases h
  all_goals exact ⟨by decide, by decide, by decide⟩

/-- On quote-free sources the numeric tokens returned by the scanning loop
are in one-to-one, order-preserving correspondence with the maximal digit
runs of the source, and carry exactly those runs as text. -/
theorem lexLoop_digitRuns (src : List Char) :
    '\"' ∉ src → ∀ toks, lexLoop src = .ok toks →
      (toks.filter fun t => decide (t.type = TokenType.Number)).map Token.value =
        (digitRuns src).map String.mk := by
  induction src using lexLoop.induct with
  | case1 =>
    intro _ toks h
    rw [lexLoop_nil] at h
    injection h with h'
    subst h'
    simp [digitRuns_nil]
  | case2 c rest t hsct ih =>
    intro hnq toks h
    rw [lexLoop_single c rest t hsct] at h
    obtain ⟨ts, hts, rfl⟩ := consTok_eq_ok.mp h
    have hcd : isint c = false := by
      cases hci : isint c
      · rfl
      · rw [singleCharToken_isint c hci] at hsct
        cases hsct
    have htype := (singleCharToken_type c t hsct).1
    rw [digitRuns_neg c rest hcd]
    simp only [List.filter_cons, decide_eq_true_eq, htype, if_false]
    exact ih (fun hx => hnq (List.mem_cons_of_mem c hx)) ts hts
  | case3 c rest hsct hint ih =>
    intro hnq toks h
    rw [lexLoop_int c rest hint] at h
    obtain ⟨ts, hts, rfl⟩ := consTok_eq_ok.mp h
    rw [digitRuns_pos c rest hint]
    have hihr := ih (fun hx => hnq (List.Sublist.mem hx (List.dropWhile_sublist isint)))
      ts hts
    simp [List.filter_cons, token, hihr]
  | case4 rest hhead hsct hni ih =>
    intro hnq toks h
    rw [lexLoop_eqCh rest, if_pos hhead] at h
    obtain ⟨ts, hts, rfl⟩ := consTok_eq_ok.mp h
    cases rest with
    | nil => simp at hhead
    | cons r rs =>
      have hr : r = '=' := by simpa using hhead
      subst hr
      rw [digitRuns_neg '=' ('=' :: rs) (by decide), digitRuns_neg '=' rs (by decide)]
      simp only [List.filter_cons, decide_eq_true_eq, token, if_false]
      exact ih (fun hx => hnq (List.mem_cons_of_mem _ (List.mem_cons_of_mem _ hx))) ts hts
  | case5 rest hhead hsct hni ih =>
    intro hnq toks h
    rw [lexLoop_eqCh rest, if_neg hhead] at h
    obtain ⟨ts, hts, rfl⟩ := consTok_eq_ok.mp h
    rw [digitRuns_neg '=' rest (by decide)]
    simp only [List.filter_cons, decide_eq_true_eq, token, if_false]
    exact ih (fun hx => hnq (List.mem_cons_of_mem _ hx)) ts hts
  | case6 rest hhead hsct hni hne1 ih =>
    intro hnq toks h
    rw [lexLoop_amp rest, if_pos hhead] at h
    obtain ⟨ts, hts, rfl⟩ := consTok_eq_ok.mp h
    cases rest with
    | nil => simp at hhead
    | cons r rs =>
      have hr : r = '&' := by simpa using hhead
      subst hr
      rw [digitRuns_neg '&' ('&' :: rs) (by decide), digitRuns_neg '&' rs (by decide)]
      simp only [List.filter_cons, decide_eq_true_eq, token, if_false]
      exact ih (fun hx => hnq (List.mem_cons_of_mem _ (List.mem_cons_of_mem _ hx))) ts hts
  | case7 rest hhead hsct hni hne1 ih =>
    intro hnq toks h
    rw [lexLoop_amp rest, if_neg hhead] at h
    obtain ⟨ts, hts, rfl⟩ := consTok_eq_ok.mp h
    rw [digitRuns_neg '&' rest (by decide)]
    simp only [List.filter_cons, decide_eq_true_eq, token, if_false]
    exact ih (fun hx => hnq (List.mem_cons_of_mem _ hx)) ts hts
  | case8 rest hhead hsct hni hne1 hne2 ih =>
    intro hnq toks h
    rw [lexLoop_bang rest, if_pos hhead] at h
    obtain ⟨ts, hts, rfl⟩ := consTok_eq_ok.mp h
    cases rest with
    | nil => simp at hhead
    | cons r rs =>
      have hr : r = '=' := by simpa using hhead
      subst hr
      rw [digitRuns_neg '!' ('=' :: rs) (by decide), digitRuns_neg '=' rs (by decide)]
      simp only [List.filter_cons, decide_eq_true_eq, token, if_false]
      exact ih (fun hx => hnq (List.mem_cons_of_mem _ (List.mem_cons_of_mem _ hx))) ts hts
  | case9 rest hhead hsct hni hne1 hne2 ih =>
    intro hnq toks h
    rw [lexLoop_bang rest, if_neg hhead] at h
    obtain ⟨ts, hts, rfl⟩ := consTok_eq_ok.mp h
    rw [digitRuns_neg '!' rest (by decide)]
    simp only [List.filter_cons, decide_eq_true_eq, token, if_false]
    exact ih (fun hx => hnq (List.mem_cons_of_mem _ hx)) ts hts
  | case10 rest hsct hni hne1 hne2 hne3 ih =>
    intro hnq toks h
    exact absurd (List.mem_cons_self '\"' rest) hnq
  | case11 c rest hsct hni hne1 hne2 hne3 hne4 halpha ih =>
    intro hnq toks h
    rw [lexLoop_alpha c rest halpha] at h
    obtain ⟨ts, hts, rfl⟩ := consTok_eq_ok.mp h
    have hrw : digitRuns (c :: rest) = digitRuns ((c :: rest).dropWhile isalpha) := by
      conv_lhs => rw [← List.takeWhile_append_dropWhile isalpha (c :: rest)]
      exact digitRuns_append_nonint _ _ fun x hx =>
        isint_of_isalpha x (List.mem_takeWhile_imp hx)
    rw [hrw]
    have htype : ¬((KEYWORDS (String.mk ((c :: rest).takeWhile isalpha))).getD
        TokenType.Identifier) = TokenType.Number := by
      cases hk : KEYWORDS (String.mk ((c :: rest).takeWhile isalpha)) with
      | none => simp
      | some k =>
        rcases KEYWORDS_eq_some _ k hk with ⟨_, rfl⟩ | ⟨_, rfl⟩ | ⟨_, rfl⟩ |
          ⟨_, rfl⟩ | ⟨_, rfl⟩ | ⟨_, rfl⟩ <;> simp
    simp only [List.filter_cons, decide_eq_true_eq, token, htype, if_false]
    exact ih (fun hx => hnq (List.Sublist.mem hx (List.dropWhile_sublist isalpha))) ts hts
  | case12 c rest hsct hni hne1 hne2 hne3 hne4 hnal hskip ih =>
    intro hnq toks h
    rw [lexLoop_skip c rest hskip] at h
    rw [digitRuns_neg c rest ((isskippable_class c hskip).2.1)]
    exact ih (fun hx => hnq (List.mem_cons_of_mem _ hx)) toks h
  | case13 c rest hsct hint hne1 hne2 hne3 hne4 halpha hskip =>
    intro hnq toks h
    rw [lexLoop_unrec c rest
      (recognizedChar_false c hsct hint hne1 hne2 hne3 hne4 halpha hskip)] at h
    cases h

/-- On quote-free sources the identifier-or-keyword tokens returned by the
scanning loop are in one-to-one, order-preserving correspondence with the
maximal letter/underscore runs of the source, and carry exactly those runs
as text. -/
theorem lexLoop_alphaRuns (src : List Char) :
    '\"' ∉ src → ∀ toks, lexLoop src = .ok toks →
      (toks.filter fun t => identLike t.type).map Token.value =
        (alphaRuns src).map String.mk := by
  induction src using lexLoop.induct with
  | case1 =>
    intro _ toks h
    rw [lexLoop_nil] at h
    injection h with h'
    subst h'
    simp [alphaRuns_nil]
  | case2 c rest t hsct ih =>
    intro hnq toks h
    rw [lexLoop_single c rest t hsct] at h
    obtain ⟨ts, hts, rfl⟩ := consTok_eq_ok.mp h
    have hca : isalpha c = false := by
      cases hci : isalpha c
      · rfl
      · rw [singleCharToken_isalpha c hci] at hsct
        cases hsct
    have htype := (singleCharToken_type c t hsct).2.1
    rw [alphaRuns_neg c rest hca]
    simp only [List.filter_cons, htype, if_false]
    exact ih (fun hx => hnq (List.mem_cons_of_mem c hx)) ts hts
  | case3 c rest hsct hint ih =>
    intro hnq toks h
    rw [lexLoop_int c rest hint] at h
    obtain ⟨ts, hts, rfl⟩ := consTok_eq_ok.mp h
    have hrw : alphaRuns (c :: rest) = alphaRuns ((c :: rest).dropWhile isint) := by
      conv_lhs => rw [← List.takeWhile_append_dropWhile isint (c :: rest)]
      exact alphaRuns_append_nonalpha _ _ fun x hx =>
        isalpha_of_isint x (List.mem_takeWhile_imp hx)
    rw [hrw]
    simp only [List.filter_cons, token, identLike, if_false]
    exact ih (fun hx => hnq (List.Sublist.mem hx (List.dropWhile_sublist isint))) ts hts
  | case4 rest hhead hsct hni ih =>
    intro hnq toks h
    rw [lexLoop_eqCh rest, if_pos hhead] at h
    obtain ⟨ts, hts, rfl⟩ := consTok_eq_ok.mp h
    cases rest with
    | nil => simp at hhead
    | cons r rs =>
      have hr : r = '=' := by simpa using hhead
      subst hr
      rw [alphaRuns_neg '=' ('=' :: rs) (by decide), alphaRuns_neg '=' rs (by decide)]
      simp only [List.filter_cons, token, identLike, if_false]
      exact ih (fun hx => hnq (List.mem_cons_of_mem _ (List.mem_cons_of_mem _ hx))) ts hts
  | case5 rest hhead hsct hni ih =>
    intro hnq toks h
    rw [lexLoop_eqCh rest, if_neg hhead] at h
    obtain ⟨ts, hts, rfl⟩ := consTok_eq_ok.mp h
    rw [alphaRuns_neg '=' rest (by decide)]
    simp only [List.filter_cons, token, identLike, if_false]
    exact ih (fun hx => hnq (List.mem_cons_of_mem _ hx)) ts hts
  | case6 rest hhead hsct hni hne1 ih =>
    intro hnq toks h
    rw [lexLoop_amp rest, if_pos hhead] at h
    obtain ⟨ts, hts, rfl⟩ := consTok_eq_ok.mp h
    cases rest with
    | nil => simp at hhead
    | cons r rs =>
      have hr : r = '&' := by simpa using hhead
      subst hr
      rw [alphaRuns_neg '&' ('&' :: rs) (by decide), alphaRuns_neg '&' rs (by decide)]
      simp only [List.filter_cons, token, identLike, if_false]
      exact ih (fun hx => hnq (List.mem_cons_of_mem _ (List.mem_cons_of_mem _ hx))) ts hts
  | case7 rest hhead hsct hni hne1 ih =>
    intro hnq toks h
    rw [lexLoop_amp rest, if_neg hhead] at h
    obtain ⟨ts, hts, rfl⟩ := consTok_eq_ok.mp h
    rw [alphaRuns_neg '&' rest (by decide)]
    simp only [List.filter_cons, token, identLike, if_false]
    exact ih (fun hx => hnq (List.mem_cons_of_mem _ hx)) ts hts
  | case8 rest hhead hsct hni hne1 hne2 ih =>
    intro hnq toks h
    rw [lexLoop_bang rest, if_pos hhead] at h
    obtain ⟨ts, hts, rfl⟩ := consTok_eq_ok.mp h
    cases rest with
    | nil => simp at hhead
    | cons r rs =>
      have hr : r = '=' := by simpa using hhead
      subst hr
      rw [alphaRuns_neg '!' ('=' :: rs) (by decide), alphaRuns_neg '=' rs (by decide)]
      simp only [List.filter_cons, token, identLike, if_false]
      exact ih (fun hx => hnq (List.mem_cons_of_mem _ (List.mem_cons_of_mem _ hx))) ts hts
  | case9 rest hhead hsct hni hne1 hne2 ih =>
    intro hnq toks h
    rw [lexLoop_bang rest, if_neg hhead] at h
    obtain ⟨ts, hts, rfl⟩ := consTok_eq_ok.mp h
    rw [alphaRuns_neg '!' rest (by decide)]
    simp only [List.filter_cons, token, identLike, if_false]
    exact ih (fun hx => hnq (List.mem_cons_of_mem _ hx)) ts hts
  | case10 rest hsct hni hne1 hne2 hne3 ih =>
    intro hnq toks h
    exact absurd (List.mem_cons_self '\"' rest) hnq
  | case11 c rest hsct hni hne1 hne2 hne3 hne4 halpha ih =>
    intro hnq toks h
    rw [lexLoop_alpha c rest halpha] at h
    obtain ⟨ts, hts, rfl⟩ := consTok_eq_ok.mp h
    rw [alphaRuns_pos c rest halpha]
    have hihr := ih (fun hx => hnq (List.Sublist.mem hx (List.dropWhile_sublist isalpha)))
      ts hts
    have htype : identLike ((KEYWORDS (String.mk ((c :: rest).takeWhile isalpha))).getD
        TokenType.Identifier) = true := by
      cases hk : KEYWORDS (String.mk ((c :: rest).takeWhile isalpha)) with
      | none => simp [identLike]
      | some k =>
        rcases KEYWORDS_eq_some _ k hk with ⟨_, rfl⟩ | ⟨_, rfl⟩ | ⟨_, rfl⟩ |
          ⟨_, rfl⟩ | ⟨_, rfl⟩ | ⟨_, rfl⟩ <;> simp [identLike]
    simp [List.filter_cons, token, htype, hihr]
  | case12 c rest hsct hni hne1 hne2 hne3 hne4 hnal hskip ih =>
    intro hnq toks h
    rw [lexLoop_skip c rest hskip] at h
    rw [alphaRuns_neg c rest ((isskippable_class c hskip).2.2.1)]
    exact ih (fun hx => hnq (List.mem_cons_of_mem _ hx)) toks h
  | case13 c rest hsct hint hne1 hne2 hne3 hne4 halpha hskip =>
    intro hnq toks h
    rw [lexLoop_unrec c rest
      (recognizedChar_false c hsct hint hne1 hne2 hne3 hne4 halpha hskip)] at h
    cases h

/-- Well-shaped tokens are never the end-of-file token. -/
theorem tokenShape_ne_eof (t : Token) (ht : tokenShape t) :
    t.type ≠ TokenType.EOF := by
  rcases t with ⟨v, ty⟩
  intro h
  dsimp at h
  subst h
  exact ht

/-! ## Claim theorems -/

/-- C1: for every source text containing only recognized character classes,
`tokenize` terminates (the model is a total function, by the well-founded
recursion of `lexLoop` that consumes at least one character per iteration)
and returns a token sequence whose last element is the end-of-input token,
with the end-of-input token occurring exactly once in the sequence. -/
theorem C1_tokenize_terminates_unique_eof (s : String)
    (hall : ∀ c ∈ s.data, recognizedChar c = true) :
    ∃ toks, tokenize s = .ok toks ∧
      toks.getLast? = some (token "EndOfFile" TokenType.EOF) ∧
      toks.countP (fun t => decide (t.type = TokenType.EOF)) = 1 := by
  obtain ⟨ts, hts⟩ := lexLoop_total s.data hall
  refine ⟨ts ++ [token "EndOfFile" TokenType.EOF], ?_, ?_, ?_⟩
  · unfold tokenize
    rw [hts]
  · exact List.getLast?_concat ts
  · rw [List.countP_append]
    have h0 : ts.countP (fun t => decide (t.type = TokenType.EOF)) = 0 :=
      List.countP_eq_zero.mpr fun t ht => by
        have hsh := lexLoop_shape s.data ts hts t ht
        simpa using tokenShape_ne_eof t hsh
    rw [h0]
    decide

/-- Witness for C1 at the concrete source `let x = 1 + 2;`. -/
theorem C1_witness :
    ∃ toks, tokenize "let x = 1 + 2;" = .ok toks ∧
      toks.getLast? = some (token "EndOfFile" TokenType.EOF) ∧
      toks.countP (fun t => decide (t.type = TokenType.EOF)) = 1 :=
  C1_tokenize_terminates_unique_eof "let x = 1 + 2;" (by decide)

/-- C3 (amended): whenever `tokenize` aborts, it terminates the process with
exit status 1, logging the code point of some character of the source that
belongs to no recognized class; no error value is returned to the host. -/
theorem C3_exit_reports_code_point (s : String) (st cp : Nat)
    (h : tokenize s = .processExit st cp) :
    st = 1 ∧ ∃ c ∈ s.data, recognizedChar c = false ∧ cp = c.toNat := by
  unfold tokenize at h
  cases hls : lexLoop s.data with
  | ok ts =>
    rw [hls] at h
    cases h
  | processExit st' cp' =>
    rw [hls] at h
    injection h with h1 h2
    subst h1
    subst h2
    exact lexLoop_exit s.data _ _ hls

/-- Counterexample for C3 as frozen: at the one-character source `#`
(code point 35, in no recognized class) `tokenize` does not return an
inspectable error value — it exits the process with status 1, as the
`processExit` outcome of the model records. -/
theorem C3_counterexample : tokenize "#" = .processExit 1 35 := by
  simp [tokenize, lexLoop, singleCharToken, token, isint, isalpha, isskippable,
    KEYWORDS, LexOutcome.consTok]

/-- Witness for C3 at the concrete source `#`. -/
theorem C3_witness :
    1 = 1 ∧ ∃ c ∈ ("#" : String).data, recognizedChar c = false ∧ 35 = c.toNat :=
  C3_exit_reports_code_point "#" 1 35
    (by simp [tokenize, lexLoop, singleCharToken, token, isint, isalpha,
      isskippable, KEYWORDS, LexOutcome.consTok])

/-- C4: two-character operators are resolved by one-character lookahead:
`=` followed by `=` lexes as one equality-compare token and otherwise (any
other next character, or end of input) as an assignment token; `&` followed
by `&` lexes as one logical-and token and otherwise as a bitwise-and token;
`!` followed by `=` lexes as one not-equal token and otherwise as a
logical-not token; `>` and `<` always lex as single-character tokens,
whatever follows (no `>=`/`<=`). -/
theorem C4_two_char_lookahead :
    (∀ rest : List Char, lexLoop ('=' :: '=' :: rest) =
      (lexLoop rest).consTok (token "==" TokenType.EqualsCompare)) ∧
    (∀ (c : Char) (rest : List Char), c ≠ '=' → lexLoop ('=' :: c :: rest) =
      (lexLoop (c :: rest)).consTok (token "=" TokenType.Equals)) ∧
    lexLoop ['='] = .ok [token "=" TokenType.Equals] ∧
    (∀ rest : List Char, lexLoop ('&' :: '&' :: rest) =
      (lexLoop rest).consTok (token "&&" TokenType.And)) ∧
    (∀ (c : Char) (rest : List Char), c ≠ '&' → lexLoop ('&' :: c :: rest) =
      (lexLoop (c :: rest)).consTok (token "&" TokenType.Ampersand)) ∧
    lexLoop ['&'] = .ok [token "&" TokenType.Ampersand] ∧
    (∀ rest : List Char, lexLoop ('!' :: '=' :: rest) =
      (lexLoop rest).consTok (token "!=" TokenType.NotEqualsCompare)) ∧
    (∀ (c : Char) (rest : List Char), c ≠ '=' → lexLoop ('!' :: c :: rest) =
      (lexLoop (c :: rest)).consTok (token "!" TokenType.Exclamation)) ∧
    lexLoop ['!'] = .ok [token "!" TokenType.Exclamation] ∧
    (∀ rest : List Char, lexLoop ('>' :: rest) =
      (lexLoop rest).consTok (token ">" TokenType.Greater)) ∧
    (∀ rest : List Char, lexLoop ('<' :: rest) =
      (lexLoop rest).consTok (token "<" TokenType.Lesser)) := by
  refine ⟨?_, ?_, ?_, ?_, ?_, ?_, ?_, ?_, ?_, ?_, ?_⟩
  · intro rest
    rw [lexLoop_eqCh ('=' :: rest), if_pos (by rfl)]
    rfl
  · intro c rest hc
    rw [lexLoop_eqCh (c :: rest), if_neg (by simpa using hc)]
  · rw [lexLoop_eqCh [], if_neg (by simp), lexLoop_nil]
    rfl
  · intro rest
    rw [lexLoop_amp ('&' :: rest), if_pos (by rfl)]
    rfl
  · intro c rest hc
    rw [lexLoop_amp (c :: rest), if_neg (by simpa using hc)]
  · rw [lexLoop_amp [], if_neg (by simp), lexLoop_nil]
    rfl
  · intro rest
    rw [lexLoop_bang ('=' :: rest), if_pos (by rfl)]
    rfl
  · intro c rest hc
    rw [lexLoop_bang (c :: rest), if_neg (by simpa using hc)]
  · rw [lexLoop_bang [], if_neg (by simp), lexLoop_nil]
    rfl
  · intro rest
    rw [lexLoop_single '>' rest (token ">" TokenType.Greater) (by decide)]
  · intro rest
    rw [lexLoop_single '<' rest (token "<" TokenType.Lesser) (by decide)]

/-- Witness for C4 at concrete lookahead characters, discharging the
`c ≠ '='` and `c ≠ '&'` hypotheses at `'1'`; the last conjunct applies the
`>` case with `=` following, recording the absence of a `>=` token. -/
theorem C4_witness :
    lexLoop ['=', '=', '1'] = (lexLoop ['1']).consTok (token "==" TokenType.EqualsCompare) ∧
    lexLoop ['=', '1'] = (lexLoop ['1']).consTok (token "=" TokenType.Equals) ∧
    lexLoop ['&', '1'] = (lexLoop ['1']).consTok (token "&" TokenType.Ampersand) ∧
    lexLoop ['!', '1'] = (lexLoop ['1']).consTok (token "!" TokenType.Exclamation) ∧
    lexLoop ['>', '='] = (lexLoop ['=']).consTok (token ">" TokenType.Greater) :=
  ⟨C4_two_char_lookahead.1 ['1'],
    C4_two_char_lookahead.2.1 '1' [] (by decide),
    C4_two_char_lookahead.2.2.2.2.1 '1' [] (by decide),
    C4_two_char_lookahead.2.2.2.2.2.2.2.1 '1' [] (by decide),
    C4_two_char_lookahead.2.2.2.2.2.2.2.2.2.1 ['=']⟩

/-- Plain concatenation of the raw texts of a token sequence, with no
separator — the re-lexing input prescribed by the round-trip claim. -/
def concatValues : List Token → List Char
  | [] => []
  | t :: ts => t.value.data ++ concatValues ts

/-- Counterexample for C2 as frozen: lexing `1 2` yields two numeric tokens;
re-lexing the plain concatenation of their raw texts (`12`) yields a single
numeric token, so the kind sequences differ. -/
theorem C2_counterexample :
    tokenize "1 2" = .ok [token "1" TokenType.Number, token "2" TokenType.Number,
      token "EndOfFile" TokenType.EOF] ∧
    String.mk (concatValues ([token "1" TokenType.Number, token "2" TokenType.Number,
      token "EndOfFile" TokenType.EOF].dropLast)) = "12" ∧
    tokenize "12" = .ok [token "12" TokenType.Number, token "EndOfFile" TokenType.EOF] ∧
    [token "1" TokenType.Number, token "2" TokenType.Number,
        token "EndOfFile" TokenType.EOF].map Token.type ≠
      [token "12" TokenType.Number, token "EndOfFile" TokenType.EOF].map Token.type := by
  refine ⟨?_, by decide, ?_, by decide⟩
  · simp [tokenize, lexLoop, singleCharToken, token, isint, isalpha, isskippable,
      KEYWORDS, LexOutcome.consTok]
  · simp [tokenize, lexLoop, singleCharToken, token, isint, isalpha, isskippable,
      KEYWORDS, LexOutcome.consTok]

/-- C2 (amended): for every source text that `tokenize` accepts and that
contains no double-quote character, re-lexing the concatenation of each
produced token's raw text followed by one separating space (in source order,
excluding the end-of-input marker) yields a token sequence whose kind
sequence equals the original kind sequence (in fact the token sequences are
equal). -/
theorem C2_roundtrip_spaced (s : String) (hnq : '\"' ∉ s.data)
    (toks : List Token) (h : tokenize s = .ok toks) :
    ∃ toks2, tokenize (String.mk (spacedFlat toks.dropLast)) = .ok toks2 ∧
      toks2.map Token.type = toks.map Token.type := by
  unfold tokenize at h
  cases hls : lexLoop s.data with
  | processExit st cp =>
    rw [hls] at h
    cases h
  | ok ts =>
    rw [hls] at h
    injection h with h'
    subst h'
    have hshape := lexLoop_shape s.data ts hls
    have hnostr := lexLoop_noString s.data hnq ts hls
    rw [List.dropLast_concat]
    have hrelex := lexLoop_spacedFlat ts fun t ht => ⟨hshape t ht, hnostr t ht⟩
    refine ⟨ts ++ [token "EndOfFile" TokenType.EOF], ?_, rfl⟩
    unfold tokenize
    have hd : (String.mk (spacedFlat ts)).data = spacedFlat ts := rfl
    rw [hd, hrelex]

/-- Witness for C2 at the concrete source `let x = 1`. -/
theorem C2_witness :
    ∃ toks2, tokenize (String.mk (spacedFlat ([token "let" TokenType.Let,
        token "x" TokenType.Identifier, token "=" TokenType.Equals,
        token "1" TokenType.Number, token "EndOfFile" TokenType.EOF].dropLast))) =
      .ok toks2 ∧
      toks2.map Token.type = [token "let" TokenType.Let,
        token "x" TokenType.Identifier, token "=" TokenType.Equals,
        token "1" TokenType.Number, token "EndOfFile" TokenType.EOF].map Token.type :=
  C2_roundtrip_spaced "let x = 1" (by decide) _
    (by simp [tokenize, lexLoop, singleCharToken, token, isint, isalpha,
      isskippable, KEYWORDS, LexOutcome.consTok])

/-- C5 (amended): on every accepted source free of double quotes, the
numeric-literal tokens correspond one-to-one, in order, to the maximal digit
runs of the source and carry exactly those runs as text; moreover every
numeric token's text is a nonempty string of digit characters (so it
contains no decimal point, exponent, or sign). -/
theorem C5_number_tokens_are_digit_runs (s : String) (hnq : '\"' ∉ s.data)
    (toks : List Token) (h : tokenize s = .ok toks) :
    (toks.filter fun t => decide (t.type = TokenType.Number)).map Token.value =
      (digitRuns s.data).map String.mk ∧
    ∀ t ∈ toks, t.type = TokenType.Number →
      t.value.data ≠ [] ∧ ∀ c ∈ t.value.data, isint c = true := by
  unfold tokenize at h
  cases hls : lexLoop s.data with
  | processExit st cp =>
    rw [hls] at h
    cases h
  | ok ts =>
    rw [hls] at h
    injection h with h'
    subst h'
    constructor
    · rw [List.filter_append]
      have heof : List.filter (fun t => decide (t.type = TokenType.Number))
          [token "EndOfFile" TokenType.EOF] = [] := rfl
      rw [heof, List.append_nil]
      exact lexLoop_digitRuns s.data hnq ts hls
    · intro t ht htype
      rcases List.mem_append.mp ht with hmem | hmem
      · have hsh := lexLoop_shape s.data ts hls t hmem
        rcases t with ⟨v, ty⟩
        dsimp at htype
        subst htype
        exact hsh
      · rw [List.mem_singleton] at hmem
        subst hmem
        exact absurd htype (by decide)

/-- Counterexample for C5 as frozen: the source `"1"` (a string literal)
contains the maximal digit run `1`, yet `tokenize` emits no numeric token
for it — the run is swallowed by the string literal. -/
theorem C5_counterexample :
    tokenize "\"1\"" = .ok [token "1" TokenType.String,
      token "EndOfFile" TokenType.EOF] ∧
    digitRuns ("\"1\"" : String).data = [['1']] ∧
    ([token "1" TokenType.String, token "EndOfFile" TokenType.EOF].filter
      fun t => decide (t.type = TokenType.Number)) = [] := by
  refine ⟨?_, ?_, by decide⟩
  · simp [tokenize, lexLoop, singleCharToken, token, isint, isalpha, isskippable,
      KEYWORDS, LexOutcome.consTok]
  · show digitRuns ['\"', '1', '\"'] = [['1']]
    simp [digitRuns, isint]

/-- Witness for C5 at the concrete source `x1 22;`. -/
theorem C5_witness :
    (([token "x" TokenType.Identifier, token "1" TokenType.Number,
        token "22" TokenType.Number, token ";" TokenType.Semicolon,
        token "EndOfFile" TokenType.EOF].filter
      fun t => decide (t.type = TokenType.Number)).map Token.value =
      (digitRuns ("x1 22;" : String).data).map String.mk) ∧
    ∀ t ∈ [token "x" TokenType.Identifier, token "1" TokenType.Number,
        token "22" TokenType.Number, token ";" TokenType.Semicolon,
        token "EndOfFile" TokenType.EOF], t.type = TokenType.Number →
      t.value.data ≠ [] ∧ ∀ c ∈ t.value.data, isint c = true :=
  C5_number_tokens_are_digit_runs "x1 22;" (by decide) _
    (by simp [tokenize, lexLoop, singleCharToken, token, isint, isalpha,
      isskippable, KEYWORDS, LexOutcome.consTok])

/-- C6 (amended): on every accepted source free of double quotes, the
identifier-or-keyword tokens correspond one-to-one, in order, to the maximal
letter/underscore runs of the source and carry exactly those runs as text;
each such token is tagged with a keyword kind exactly when its whole text is
an exact, case-sensitive hit in the keyword table, and as a generic
identifier otherwise. -/
theorem C6_ident_tokens_are_alpha_runs (s : String) (hnq : '\"' ∉ s.data)
    (toks : List Token) (h : tokenize s = .ok toks) :
    (toks.filter fun t => identLike t.type).map Token.value =
      (alphaRuns s.data).map String.mk ∧
    ∀ t ∈ toks, identLike t.type = true →
      t.type = (KEYWORDS t.value).getD TokenType.Identifier := by
  unfold tokenize at h
  cases hls : lexLoop s.data with
  | processExit st cp =>
    rw [hls] at h
    cases h
  | ok ts =>
    rw [hls] at h
    injection h with h'
    subst h'
    constructor
    · rw [List.filter_append]
      have heof : List.filter (fun t => identLike t.type)
          [token "EndOfFile" TokenType.EOF] = [] := rfl
      rw [heof, List.append_nil]
      exact lexLoop_alphaRuns s.data hnq ts hls
    · intro t ht hid
      rcases List.mem_append.mp ht with hmem | hmem
      · have hsh := lexLoop_shape s.data ts hls t hmem
        rcases t with ⟨v, ty⟩
        cases ty
        case Identifier =>
          obtain ⟨_, _, hkw⟩ := hsh
          dsimp
          rw [hkw]
          rfl
        case Let =>
          have hv : v = "let" := hsh
          subst hv
          decide
        case Const =>
          have hv : v = "const" := hsh
          subst hv
          decide
        case Fn =>
          have hv : v = "fn" := hsh
          subst hv
          decide
        case If =>
          have hv : v = "if" := hsh
          subst hv
          decide
        case Else =>
          have hv : v = "else" := hsh
          subst hv
          decide
        case For =>
          have hv : v = "for" := hsh
          subst hv
          decide
        all_goals simp [identLike] at hid
      · rw [List.mem_singleton] at hmem
        subst hmem
        exact absurd hid (by decide)

/-- Counterexample for C6 as frozen: the source `"if"` (a string literal)
contains the maximal letter run `if`, yet `tokenize` emits neither a keyword
nor an identifier token for it — the run is swallowed by the string
literal. -/
theorem C6_counterexample :
    tokenize "\"if\"" = .ok [token "if" TokenType.String,
      token "EndOfFile" TokenType.EOF] ∧
    alphaRuns ("\"if\"" : String).data = [['i', 'f']] ∧
    ([token "if" TokenType.String, token "EndOfFile" TokenType.EOF].filter
      fun t => identLike t.type) = [] := by
  refine ⟨?_, ?_, by decide⟩
  · simp [tokenize, lexLoop, singleCharToken, token, isint, isalpha, isskippable,
      KEYWORDS, LexOutcome.consTok]
  · show alphaRuns ['\"', 'i', 'f', '\"'] = [['i', 'f']]
    simp [alphaRuns, isalpha]

/-- Witness for C6 at the concrete source `let letx;` (`let` is a keyword,
`letx` is not — no partial keyword match). -/
theorem C6_witness :
    (([token "let" TokenType.Let, token "letx" TokenType.Identifier,
        token ";" TokenType.Semicolon, token "EndOfFile" TokenType.EOF].filter
      fun t => identLike t.type).map Token.value =
      (alphaRuns ("let letx;" : String).data).map String.mk) ∧
    ∀ t ∈ [token "let" TokenType.Let, token "letx" TokenType.Identifier,
        token ";" TokenType.Semicolon, token "EndOfFile" TokenType.EOF],
      identLike t.type = true →
      t.type = (KEYWORDS t.value).getD TokenType.Identifier :=
  C6_ident_tokens_are_alpha_runs "let letx;" (by decide) _
    (by simp [tokenize, lexLoop, singleCharToken, token, isint, isalpha,
      isskippable, KEYWORDS, LexOutcome.consTok])

/-- C7: scanning a double-quote-delimited string literal emits one string
token whose text is exactly the characters between the quotes, verbatim
(no escape processing — the content is arbitrary as long as it holds no
quote); and in every token sequence `tokenize` returns, no string token's
text contains a double quote. -/
theorem C7_string_literal_verbatim :
    (∀ (content rest : List Char), (∀ c ∈ content, c ≠ '\"') →
      lexLoop ('\"' :: content ++ '\"' :: rest) =
        (lexLoop rest).consTok (token (String.mk content) TokenType.String)) ∧
    (∀ (s : String) (toks : List Token), tokenize s = .ok toks →
      ∀ t ∈ toks, t.type = TokenType.String → ∀ c ∈ t.value.data, c ≠ '\"') := by
  constructor
  · intro content rest hnc
    rw [List.cons_append, lexLoop_quote (content ++ '\"' :: rest)]
    have hb : ∀ c, ('\"' :: rest : List Char).head? = some c →
        (fun x => decide (x ≠ '\"')) c = false := by
      intro c hc
      injection hc with hc'
      subst hc'
      simp
    have htd := @takeWhile_append_head (fun x => decide (x ≠ '\"')) content
      ('\"' :: rest) hb
    have hta := @takeWhile_all (fun x => decide (x ≠ '\"')) content
      fun c hc => by simpa using hnc c hc
    rw [htd.1, htd.2, hta.1, hta.2]
    simp only [List.nil_append, List.drop_succ_cons, List.drop_zero]
  · intro s toks h t ht htype c hc
    unfold tokenize at h
    cases hls : lexLoop s.data with
    | processExit st cp =>
      rw [hls] at h
      cases h
    | ok ts =>
      rw [hls] at h
      injection h with h'
      subst h'
      rcases List.mem_append.mp ht with hmem | hmem
      · have hsh := lexLoop_shape s.data ts hls t hmem
        rcases t with ⟨v, ty⟩
        dsimp at htype
        subst htype
        exact hsh c hc
      · rw [List.mem_singleton] at hmem
        subst hmem
        exact absurd htype (by decide)

/-- Witness for C7: a string literal whose content is a backslash followed
by `n` keeps both characters verbatim (no escape processing), and the
statement about `tokenize "\"ab\""` shows quote-free string token texts. -/
theorem C7_witness :
    lexLoop ('\"' :: ['\\', 'n'] ++ '\"' :: []) =
      (lexLoop []).consTok (token (String.mk ['\\', 'n']) TokenType.String) ∧
    ∀ t ∈ [token "ab" TokenType.String, token "EndOfFile" TokenType.EOF],
      t.type = TokenType.String → ∀ c ∈ t.value.data, c ≠ '\"' :=
  ⟨C7_string_literal_verbatim.1 ['\\', 'n'] [] (by decide),
    C7_string_literal_verbatim.2 "\"ab\"" _
      (by simp [tokenize, lexLoop, singleCharToken, token, isint, isalpha,
        isskippable, KEYWORDS, LexOutcome.consTok])⟩

/-- C8: the interactive loop's per-line decision exits the process with the
nonzero status 1 exactly when the received line is empty or contains the
substring `exit`; on every other line it evaluates the line and continues
with the next prompt. -/
theorem C8_repl_line_decision (input : String) :
    (∀ st, replStep input = ReplAction.exitProcess st ↔
      st = 1 ∧ (input = "" ∨ "exit".data <:+: input.data)) ∧
    (replStep input = ReplAction.evalAndContinue ↔
      ¬(input = "" ∨ "exit".data <:+: input.data)) := by
  have hiff : (decide (input = "") || jsIncludes input "exit") = true ↔
      (input = "" ∨ "exit".data <:+: input.data) := by
    simp [jsIncludes]
  by_cases hcond : (decide (input = "") || jsIncludes input "exit") = true
  · have hstep : replStep input = ReplAction.exitProcess 1 := by
      unfold replStep
      rw [if_pos hcond]
    refine ⟨?_, ?_⟩
    · intro st
      constructor
      · intro h
        rw [hstep] at h
        injection h with h1
        exact ⟨h1.symm, hiff.mp hcond⟩
      · rintro ⟨rfl, _⟩
        exact hstep
    · rw [hstep]
      constructor
      · intro h
        cases h
      · intro hn
        exact absurd (hiff.mp hcond) hn
  · have hstep : replStep input = ReplAction.evalAndContinue := by
      unfold replStep
      rw [if_neg hcond]
    refine ⟨?_, ?_⟩
    · intro st
      constructor
      · intro h
        rw [hstep] at h
        cases h
      · rintro ⟨rfl, hor⟩
        exact absurd (hiff.mpr hor) hcond
    · rw [hstep]
      exact ⟨fun _ hor => hcond (hiff.mpr hor), fun _ => rfl⟩

/-- C9: the run mode processes a file exactly when its name carries the
fixed extension — the code's gate is the bare suffix test
`filename.endsWith("cbs")` — and on every other filename it returns at once,
with nothing read, lexed, parsed or evaluated and no error raised. -/
theorem C9_run_extension_gate (filename : String) :
    (run filename = RunResult.processed ↔ "cbs".data <:+ filename.data) ∧
    (run filename = RunResult.ignored ↔ ¬"cbs".data <:+ filename.data) := by
  unfold run jsEndsWith
  by_cases hc : "cbs".data <:+ filename.data
  · simp [hc]
  · simp [hc]

/-- C10: on a source consisting of a quote-balanced prefix that scans
successfully, then an opening double quote never matched by any later quote,
`tokenize` reports no error: it returns the prefix tokens, then one string
token holding every character after the opening quote up to end of input,
then the end-of-input token. -/
theorem C10_unterminated_string (pre tail : List Char) (toksPre : List Token)
    (hbal : Even (pre.count '\"')) (htail : '\"' ∉ tail)
    (hok : lexLoop pre = .ok toksPre) :
    tokenize (String.mk (pre ++ '\"' :: tail)) =
      .ok (toksPre ++ [token (String.mk tail) TokenType.String,
        token "EndOfFile" TokenType.EOF]) := by
  have hb : ∀ c, ('\"' :: tail : List Char).head? = some c →
      isint c = false ∧ isalpha c = false ∧ c ≠ '=' ∧ c ≠ '&' := by
    intro c hc
    injection hc with hc'
    subst hc'
    exact ⟨by decide, by decide, by decide, by decide⟩
  have happ := lexLoop_append ('\"' :: tail) hb pre hbal toksPre hok
  have htail2 : lexLoop ('\"' :: tail) =
      .ok [token (String.mk tail) TokenType.String] := by
    rw [lexLoop_quote tail]
    have hta := @takeWhile_all (fun x => decide (x ≠ '\"')) tail fun c hc => by
      simp only [decide_eq_true_eq]
      intro heq
      exact htail (heq ▸ hc)
    rw [hta.1, hta.2]
    simp only [List.drop_nil, lexLoop_nil]
    rfl
  unfold tokenize
  have hd : (String.mk (pre ++ '\"' :: tail)).data = pre ++ '\"' :: tail := rfl
  rw [hd, happ, htail2]
  show LexOutcome.ok ((toksPre ++ [token (String.mk tail) TokenType.String]) ++
    [token "EndOfFile" TokenType.EOF]) = _
  rw [List.append_assoc]
  rfl

/-- Witness for C10 at the prefix `ab ` and unterminated literal content
`cd`. -/
theorem C10_witness :
    tokenize (String.mk (['a', 'b', ' '] ++ '\"' :: ['c', 'd'])) =
      .ok ([token "ab" TokenType.Identifier] ++
        [token (String.mk ['c', 'd']) TokenType.String,
          token "EndOfFile" TokenType.EOF]) :=
  C10_unterminated_string ['a', 'b', ' '] ['c', 'd'] [token "ab" TokenType.Identifier]
    (by decide) (by decide)
    (by simp [lexLoop, singleCharToken, token, isint, isalpha, isskippable,
      KEYWORDS, LexOutcome.consTok])

